import Mathlib

/-!
Verification of the data-structures repository
(linked lists, stack, queue, hash map, binary heap, BST, graph).

Each definition below is a shallow embedding of a Python method from the
repository sources; the file comment on every definition names the source.
Machine integers play no role (Python ints are unbounded), so values are
modelled as `Int` and indices/lengths as `Int`/`Nat` to match the source.
Fallible methods (those that can raise `IndexError`) return `Option`,
with `none` standing for the raised exception.
-/

set_option maxHeartbeats 1000000

namespace DSA

/-! ## Heap comparison strategies (C1)

`src/data_structures/heaps/heap.py` defines `MaxHeap._is_better(a,b) = a > b`
and `MinHeap._is_better(a,b) = a < b` (lines 204-213).  The standalone modules
`src/data_structures/heaps/max_heap.py` and `min_heap.py` define further
subclasses `MaxHeap` / `MinHeap` of `Heap` with the comparisons the other way
around. -/

/-- `MaxHeap._is_better` from `heap.py` (line 206-207): `val1 > val2`. -/
def heapPyMaxIsBetter (a b : Int) : Bool := a > b

/-- `MinHeap._is_better` from `heap.py` (line 212-213): `val1 < val2`. -/
def heapPyMinIsBetter (a b : Int) : Bool := a < b

/-- `MaxHeap._is_better` from `max_heap.py` (line 7-8): `val1 < val2`. -/
def maxHeapPyIsBetter (a b : Int) : Bool := a < b

/-- `MinHeap._is_better` from `min_heap.py` (line 7-8): `val1 > val2`. -/
def minHeapPyIsBetter (a b : Int) : Bool := a > b

/-! ## Binary search tree (C2)

`src/data_structures/trees/binary_search_tree.py`.  A `Node` holds a value and
two optional children; `BTree.nil` models the absent child (`None`). -/

inductive BTree where
  | nil : BTree
  | node (value : Int) (left : BTree) (right : BTree) : BTree
deriving DecidableEq

/-- Number of nodes of a tree (`BinarySearchTree._size`). -/
def BTree.size : BTree → Nat
  | .nil => 0
  | .node _ l r => 1 + l.size + r.size

/-- `BinarySearchTree._insert_recursive` (lines 212-223) together with the
`insert` entry point (lines 81-91): go left on `value < node.value`, right on
`value > node.value`, and silently ignore duplicates. -/
def BTree.insert : BTree → Int → BTree
  | .nil, v => .node v .nil .nil
  | .node x l r, v =>
    if v < x then .node x (l.insert v) r
    else if v > x then .node x l (r.insert v)
    else .node x l r

/-- Insert a whole list, left to right. -/
def BTree.insertList (t : BTree) (vs : List Int) : BTree :=
  vs.foldl BTree.insert t

/-- The inner `while current:` loop of `BinarySearchTree.__iter__`
(lines 66-68): push the current node and descend into its left child.
The head of the returned list is the top of the stack. -/
def BTree.pushLeft : BTree → List BTree → List BTree
  | .nil, st => st
  | .node v l r, st => BTree.pushLeft l (.node v l r :: st)

/-- Value stored in a (non-`nil`) tree node; `nil` yields a default. -/
def BTree.value : BTree → Int
  | .nil => 0
  | .node v _ _ => v

/-- Right child of a tree node. -/
def BTree.right : BTree → BTree
  | .nil => .nil
  | .node _ _ r => r

/-- The outer loop of `BinarySearchTree.__iter__` (lines 60-72).

The source guard is `while current or not stack.is_empty:`.  The imported
`Stack` class (`src/data_structures/stacks/stack.py`) declares `is_empty` as a
plain method, not a property, so `stack.is_empty` is a bound-method object,
which is always truthy in Python; hence `not stack.is_empty` is always
`False` and the guard is equivalent to `current is not None`.  The loop body
pushes the left spine of `current`, pops the top, yields its value and moves
to the popped node's right child.  `fuel` bounds the iterations; `size t + 1`
is always sufficient since every iteration pops one node. -/
def BTree.iterLoop : Nat → BTree → List BTree → List Int
  | 0, _, _ => []
  | _ + 1, .nil, _ => []
  | fuel + 1, .node v l r, stack =>
    match BTree.pushLeft (.node v l r) stack with
    | [] => []
    | top :: rest => top.value :: BTree.iterLoop fuel top.right rest

/-- `BinarySearchTree.inorder` (lines 150-157): `list(self)`, i.e. the values
produced by `__iter__`. -/
def BTree.inorder (t : BTree) : List Int :=
  BTree.iterLoop (t.size + 1) t []

/-- The classic recursive inorder traversal, modelled from the spec sentence:
push all left descendants, pop+emit, move to the popped node's right; for a
BST this is the ascending order of the stored values.  Used as the reference
point that `inorder` is claimed (and fails) to implement. -/
def BTree.inorderSpec : BTree → List Int
  | .nil => []
  | .node v l r => l.inorderSpec ++ v :: r.inorderSpec

/-! ## Hash map (C8)

`src/data_structures/hash_tables/hash_map.py`.  The map owns `capacity`
buckets, each an insertion-ordered list of key/value pairs.  Keys are `Int`;
Python's built-in `hash` is modelled by an arbitrary function
`hf : Int → Int` passed to every operation, so every theorem below holds for
any hash function. -/

structure HashMapS where
  capacity : Nat
  length : Nat
  buckets : List (List (Int × Int))
deriving DecidableEq

/-- `HashMap._hash` (lines 160-170): `hash(key) % self._capacity`.  Python's
`%` on a positive modulus is `Int.emod`, whose result is then a valid bucket
index. -/
def hmIndex (hf : Int → Int) (cap : Nat) (key : Int) : Nat :=
  ((hf key) % (cap : Int)).toNat

/-- The bucket scan of `HashMap.put` (lines 38-60): update the first pair
with the given key in place, else append; the flag tells whether the key was
found (so whether `_length` stays unchanged). -/
def hmPutBucket (k v : Int) : List (Int × Int) → List (Int × Int) × Bool
  | [] => ([(k, v)], false)
  | (k0, v0) :: rest =>
    if k0 = k then ((k, v) :: rest, true)
    else
      let r := hmPutBucket k v rest
      ((k0, v0) :: r.1, r.2)

/-- `HashMap.put` (lines 38-60). -/
def hmPut (hf : Int → Int) (m : HashMapS) (k v : Int) : HashMapS :=
  let idx := hmIndex hf m.capacity k
  let b := (m.buckets.getD idx [])
  let r := hmPutBucket k v b
  { capacity := m.capacity
    length := if r.2 then m.length else m.length + 1
    buckets := m.buckets.set idx r.1 }

/-- The bucket scan of `HashMap.get` (lines 92-109): first matching pair wins,
`None` when absent. -/
def hmFindBucket (k : Int) : List (Int × Int) → Option Int
  | [] => none
  | (k0, v0) :: rest => if k0 = k then some v0 else hmFindBucket k rest

/-- `HashMap.get` (lines 92-109). -/
def hmGet (hf : Int → Int) (m : HashMapS) (k : Int) : Option Int :=
  hmFindBucket k (m.buckets.getD (hmIndex hf m.capacity k) [])

/-- `HashMap.contains` (lines 111-126). -/
def hmContains (hf : Int → Int) (m : HashMapS) (k : Int) : Bool :=
  (hmGet hf m k).isSome

/-- `HashMap.__init__` (lines 25-34). -/
def hmEmpty (cap : Nat) : HashMapS :=
  { capacity := cap, length := 0, buckets := List.replicate cap [] }

/-- Structural well-formedness that `__init__` establishes and every
operation preserves: the bucket array has exactly `capacity` entries and the
capacity is positive (a zero capacity would make `_hash` raise
`ZeroDivisionError` in the source). -/
def hmWf (m : HashMapS) : Prop :=
  m.buckets.length = m.capacity ∧ 0 < m.capacity

instance : DecidablePred hmWf := fun m => by
  unfold hmWf; infer_instance

/-! ## Array-backed binary heap (C3, C6, C9)

`src/data_structures/heaps/heap.py`.  The heap's internal dynamic array
`_heap` is a `List Int`; the comparison strategy `_is_better` is a parameter
`isB : Int → Int → Bool` (`MaxHeap` passes `heapPyMaxIsBetter`, `MinHeap`
passes `heapPyMinIsBetter`). -/

/-- `arr[k]` for an index that the source has already bounds-checked
(out-of-range reads never happen on the executed paths). -/
def geti (arr : List Int) (k : Nat) : Int := arr.getD k 0

/-- The simultaneous assignment `arr[i], arr[j] = arr[j], arr[i]`. -/
def listSwap (arr : List Int) (i j : Nat) : List Int :=
  (arr.set i (geti arr j)).set j (geti arr i)

/-- First guard of `Heap._sift_down` (line 166): prefer the left child when it
exists and is better. -/
def pickChild1 (isB : Int → Int → Bool) (arr : List Int) (n i : Nat) : Nat :=
  if 2 * i + 1 < n ∧ isB (geti arr (2 * i + 1)) (geti arr i) = true then 2 * i + 1 else i

/-- Both guards of `Heap._sift_down` (lines 162-170): the index `smallest`
right before the final swap test. -/
def pickChild (isB : Int → Int → Bool) (arr : List Int) (n i : Nat) : Nat :=
  if 2 * i + 2 < n ∧ isB (geti arr (2 * i + 2)) (geti arr (pickChild1 isB arr n i)) = true
  then 2 * i + 2 else pickChild1 isB arr n i

/-- `Heap._sift_down` (lines 153-174): swap with the most-prioritized child
and recurse while the chosen child beats the current node. -/
def siftDown (isB : Int → Int → Bool) (arr : List Int) (n i : Nat) : List Int :=
  if h : pickChild isB arr n i = i then arr
  else
    have hb1 : pickChild1 isB arr n i = i ∨
        (pickChild1 isB arr n i = 2 * i + 1 ∧ 2 * i + 1 < n) := by
      unfold pickChild1
      split
      · rename_i hc; right; exact ⟨rfl, hc.1⟩
      · left; rfl
    have hlt : i < pickChild isB arr n i ∧ pickChild isB arr n i < n := by
      unfold pickChild at h ⊢
      split at h
      · rename_i hc
        rw [if_pos hc]
        exact ⟨by omega, hc.1⟩
      · rename_i hc
        split
        · rename_i hc2; exact absurd hc2 hc
        · rcases hb1 with h1 | ⟨h1, hlt1⟩
          · exact absurd h1 h
          · rw [h1]; exact ⟨by omega, hlt1⟩
    siftDown isB (listSwap arr i (pickChild isB arr n i)) n (pickChild isB arr n i)
termination_by n - i
decreasing_by omega

/-- `Heap.pop` (lines 65-85): save the root, remove the last element, move it
to the root and sift down.  `none` models the `IndexError` on an empty heap. -/
def popHeap (isB : Int → Int → Bool) (st : List Int) : Option (Int × List Int) :=
  match st with
  | [] => none
  | _ :: _ =>
    let root := geti st 0
    let last := st.getLast?.getD 0
    let rest := st.dropLast
    if rest.isEmpty then some (root, [])
    else some (root, siftDown isB (rest.set 0 last) rest.length 0)

/-- `Heap.peek` (lines 110-122): the root without mutation; `none` models the
`IndexError` on an empty heap. -/
def peekHeap (st : List Int) : Option Int := st.head?

/-- The `while not self.is_empty(): result.append(self.pop())` drain inside
`Heap.sort` (lines 102-104).  Each `pop` removes one element, so a fuel of
`st.length` always completes the drain. -/
def drainLoop (isB : Int → Int → Bool) : Nat → List Int → List Int
  | 0, _ => []
  | fuel + 1, st =>
    match popHeap isB st with
    | none => []
    | some (v, st2) => v :: drainLoop isB fuel st2

/-- The drain of `Heap.sort`, run with sufficient fuel. -/
def drainHeap (isB : Int → Int → Bool) (st : List Int) : List Int :=
  drainLoop isB st.length st

/-- `Heap.sort` (lines 89-108): copy the internal array
(`original_arr = self._heap[:]`), drain the heap by repeated `pop`, and in the
`finally` block restore `self._heap = original_arr`.  The result pair is
(returned list, internal array after the call). -/
def sortHeap (isB : Int → Int → Bool) (st : List Int) : List Int × List Int :=
  let originalArr := st
  let result := drainHeap isB st
  (result, originalArr)

/-- The loop `for i in range(n // 2 - 1, -1, -1): self._sift_down(arr, n, i)`
of `Heap.heapify` (lines 42-53); `heapifyLoop isB n k arr` performs the calls
for `i = k-1, k-2, …, 0`. -/
def heapifyLoop (isB : Int → Int → Bool) (n : Nat) : Nat → List Int → List Int
  | 0, arr => arr
  | k + 1, arr => heapifyLoop isB n k (siftDown isB arr n k)

/-- `Heap.heapify` (lines 42-53) as a function on the caller's list: the list
is mutated in place by the sift-downs. -/
def heapify (isB : Int → Int → Bool) (arr : List Int) : List Int :=
  heapifyLoop isB arr.length (arr.length / 2) arr

/-- The observable outcome of `Heap.heapify`: the caller's list after the
call, and the heap's internal array `self._heap = list(arr)` (a copy of the
reordered argument). -/
def heapifyRun (isB : Int → Int → Bool) (arr : List Int) : List Int × List Int :=
  (heapify isB arr, heapify isB arr)

/-- The heap property relative to the comparison strategy: no element is
better than its parent (`(j-1)/2` in the array encoding). -/
def IsHeapProp (isB : Int → Int → Bool) (arr : List Int) : Prop :=
  ∀ j, j < arr.length → 0 < j → isB (geti arr j) (geti arr ((j - 1) / 2)) = false

instance (isB : Int → Int → Bool) : DecidablePred (IsHeapProp isB) := fun arr => by
  unfold IsHeapProp; infer_instance

/-! ### Fallible comparison strategy

`_is_better` receives `Any` values in the source, so the comparison itself
can raise (e.g. on un-comparable mixed types); the `try/finally` in
`Heap.sort` restores `self._heap` also when the drain is interrupted by such
an error.  The monadic variants below mirror `_sift_down`, `pop` and the
drain with a comparison returning `Except ε Bool`. -/

/-- `Heap._sift_down` with a fallible comparison; evaluation order and
short-circuiting follow the source guards.  `fuel` bounds the recursion depth
(`n` always suffices since the index strictly increases and stays below
`n`). -/
def siftDownE {ε : Type} (isB : Int → Int → Except ε Bool) :
    Nat → List Int → Nat → Nat → Except ε (List Int)
  | 0, arr, _, _ => pure arr
  | fuel + 1, arr, n, i => do
    let s1 ←
      if 2 * i + 1 < n then do
        let b ← isB (geti arr (2 * i + 1)) (geti arr i)
        pure (if b then 2 * i + 1 else i)
      else pure i
    let s2 ←
      if 2 * i + 2 < n then do
        let b ← isB (geti arr (2 * i + 2)) (geti arr s1)
        pure (if b then 2 * i + 2 else s1)
      else pure s1
    if s2 = i then pure arr
    else siftDownE isB fuel (listSwap arr i s2) n s2

/-- `Heap.pop` with a fallible comparison. -/
def popHeapE {ε : Type} (isB : Int → Int → Except ε Bool) (st : List Int) :
    Except ε (Option (Int × List Int)) :=
  match st with
  | [] => pure none
  | _ :: _ => do
    let root := geti st 0
    let last := st.getLast?.getD 0
    let rest := st.dropLast
    if rest.isEmpty then pure (some (root, []))
    else do
      let st2 ← siftDownE isB rest.length (rest.set 0 last) rest.length 0
      pure (some (root, st2))

/-- The drain of `Heap.sort` with a fallible comparison. -/
def drainLoopE {ε : Type} (isB : Int → Int → Except ε Bool) :
    Nat → List Int → Except ε (List Int)
  | 0, _ => pure []
  | fuel + 1, st => do
    match ← popHeapE isB st with
    | none => pure []
    | some (v, st2) => do
      let tl ← drainLoopE isB fuel st2
      pure (v :: tl)

/-- `Heap.sort` with a fallible comparison: the first component is the
outcome of the drain (result list, or the propagated error), the second is
the internal array after the call — the `finally` block restores the saved
copy `original_arr` on both the normal and the error path. -/
def sortHeapE {ε : Type} (isB : Int → Int → Except ε Bool) (st : List Int) :
    Except ε (List Int) × List Int :=
  let originalArr := st
  let result := drainLoopE isB st.length st
  (result, originalArr)

/-! ## Stack (C6)

`src/data_structures/stacks/stack.py`: a dynamic array with the top at the
end.  `none` models the raised `IndexError`. -/

/-- `Stack.push` (lines 27-34): `self._items.append(item)`. -/
def stackPush (st : List Int) (v : Int) : List Int := st ++ [v]

/-- `Stack.pop` (lines 36-48): raise on empty, else remove and return the
last element. -/
def stackPop (st : List Int) : Option (Int × List Int) :=
  match st.getLast? with
  | none => none
  | some v => some (v, st.dropLast)

/-- `Stack.peek` (lines 58-70): raise on empty, else return `_items[-1]`. -/
def stackPeek (st : List Int) : Option Int := st.getLast?

/-! ## Singly linked list (C7, C10)

`src/data_structures/linked_lists/singly_linked_list.py`.  A chain of singly
linked nodes reachable from `_head` is, up to isomorphism, a `List Int`
(each node exclusively owns its `next`); `_length` is kept as a separate
field exactly as in the source.  Indices are `Int` since Python callers can
pass negative numbers. -/

structure SLL where
  chain : List Int
  length : Nat
deriving DecidableEq

/-- The `_length` field agrees with the number of nodes reachable from
`_head`; established by `__init__` and preserved by every operation. -/
def sllWf (s : SLL) : Prop := s.chain.length = s.length

instance : DecidablePred sllWf := fun s => by unfold sllWf; infer_instance

/-- The body of `SinglyLinkedList.insert` after the `index == 0` case
(lines 105-115): walk `index - 1` nodes from the head (the guarded loop
`for _ in range(index - 1): if current: current = current.next` leaves
`current` as `None` once the chain is exhausted), then splice the new node
after `current` if `current` is not `None`. -/
def sllSplice : List Int → Nat → Int → List Int
  | [], _, _ => []
  | x :: rest, 0, v => x :: v :: rest
  | x :: rest, r + 1, v => x :: sllSplice rest r v

/-- `SinglyLinkedList.insert` (lines 87-117): `IndexError` iff
`index < 0 or index > self._length`; `index == 0` delegates to `prepend`;
`_length` is incremented on every non-raising path. -/
def sllInsert (s : SLL) (i : Int) (v : Int) : Option SLL :=
  if i < 0 ∨ (s.length : Int) < i then none
  else if i = 0 then some ⟨v :: s.chain, s.length + 1⟩
  else some ⟨sllSplice s.chain (i.toNat - 1) v, s.length + 1⟩

/-- `SinglyLinkedList.get` (lines 175-199): `IndexError` iff
`index < 0 or index >= self._length`; then walk `index` guarded steps
(`List.drop` saturates at `[]` exactly like the guarded loop) and return the
reached node's data, with a trailing fallback raise when the walk ended on
`None`. -/
def sllGet (s : SLL) (i : Int) : Option Int :=
  if i < 0 ∨ (s.length : Int) ≤ i then none
  else
    match s.chain.drop i.toNat with
    | [] => none
    | d :: _ => some d

/-! ## Doubly linked list (C5, C6, C7, C10)

`src/data_structures/linked_lists/doubly_linked_list.py`.  Nodes live on a
heap addressed by `Nat` identifiers: `nodes` is a finite map from identifier
to node record, `head`/`tail` hold identifiers, and `nextId` is the next
fresh identifier (each `Node(...)` allocation consumes one).  A node that the
source unlinks becomes garbage and is dropped from the map. -/

structure DNode where
  data : Int
  next : Option Nat
  prev : Option Nat
deriving DecidableEq

/-- Finite-map lookup in the node heap (first entry with the key wins). -/
def mget : List (Nat × DNode) → Nat → Option DNode
  | [], _ => none
  | (k0, nd) :: rest, k => if k0 = k then some nd else mget rest k

/-- Mutating one attribute of the node with identifier `k`. -/
def mupd : List (Nat × DNode) → Nat → (DNode → DNode) → List (Nat × DNode)
  | [], _, _ => []
  | (k0, nd) :: rest, k, f =>
    (if k0 = k then (k0, f nd) else (k0, nd)) :: mupd rest k f

/-- Allocating a node. -/
def madd (m : List (Nat × DNode)) (k : Nat) (nd : DNode) : List (Nat × DNode) :=
  (k, nd) :: m

/-- Dropping an unlinked (garbage) node. -/
def mdel : List (Nat × DNode) → Nat → List (Nat × DNode)
  | [], _ => []
  | (k0, nd) :: rest, k =>
    if k0 = k then mdel rest k else (k0, nd) :: mdel rest k

structure DLL where
  nodes : List (Nat × DNode)
  head : Option Nat
  tail : Option Nat
  length : Nat
  nextId : Nat
deriving DecidableEq

/-- `DoublyLinkedList.__init__` (lines 54-58). -/
def dllEmpty : DLL := ⟨[], none, none, 0, 0⟩

/-- `DoublyLinkedList.is_empty` (lines 286-293): `self._head is None`. -/
def dllIsEmpty (s : DLL) : Bool := s.head.isNone

/-- `DoublyLinkedList.append` (lines 62-80).  When the list has a head but no
tail (impossible for reachable states) the inner `if self._tail:` guard
fails and the freshly allocated node is dropped unlinked, while `_length`
still grows. -/
def dllAppend (s : DLL) (v : Int) : DLL :=
  match s.head with
  | none =>
    ⟨madd s.nodes s.nextId ⟨v, none, none⟩, some s.nextId, some s.nextId,
      s.length + 1, s.nextId + 1⟩
  | some _ =>
    match s.tail with
    | some t =>
      ⟨mupd (madd s.nodes s.nextId ⟨v, none, some t⟩) t
          (fun nd => { nd with next := some s.nextId }),
        s.head, some s.nextId, s.length + 1, s.nextId + 1⟩
    | none => ⟨s.nodes, s.head, s.tail, s.length + 1, s.nextId + 1⟩

/-- `DoublyLinkedList.prepend` (lines 82-99). -/
def dllPrepend (s : DLL) (v : Int) : DLL :=
  match s.head with
  | none =>
    ⟨madd s.nodes s.nextId ⟨v, none, none⟩, some s.nextId, some s.nextId,
      s.length + 1, s.nextId + 1⟩
  | some h =>
    ⟨mupd (madd s.nodes s.nextId ⟨v, some h, none⟩) h
        (fun nd => { nd with prev := some s.nextId }),
      some s.nextId, s.tail, s.length + 1, s.nextId + 1⟩

/-- The guarded forward walk `for _ in range(k): if current: current =
current.next` used by `insert` and `get` (head direction). -/
def walkNext (s : DLL) : Option Nat → Nat → Option Nat
  | cur, 0 => cur
  | none, _ + 1 => none
  | some id, k + 1 => walkNext s ((mget s.nodes id).bind DNode.next) k

/-- The guarded backward walk (tail direction) of `insert` and `get`. -/
def walkPrev (s : DLL) : Option Nat → Nat → Option Nat
  | cur, 0 => cur
  | none, _ + 1 => none
  | some id, k + 1 => walkPrev s ((mget s.nodes id).bind DNode.prev) k

/-- `DoublyLinkedList.insert` (lines 101-143): bounds check, delegation to
`prepend`/`append` at the ends, else a direction-optimised walk to the node
that will follow the new one, and the four-pointer splice guarded by
`if current and current.prev:`.  `_length` grows on every non-raising path,
and the `Node(data)` allocation consumes an identifier in every case. -/
def dllInsert (s : DLL) (i : Int) (v : Int) : Option DLL :=
  if i < 0 ∨ (s.length : Int) < i then none
  else if i = 0 then some (dllPrepend s v)
  else if i = (s.length : Int) then some (dllAppend s v)
  else
    let k := i.toNat
    let cur := if k ≤ s.length / 2 then walkNext s s.head k
               else walkPrev s s.tail (s.length - 1 - k)
    let nid := s.nextId
    match cur with
    | some c =>
      match mget s.nodes c with
      | some cnd =>
        match cnd.prev with
        | some p =>
          some ⟨mupd (mupd (madd s.nodes nid ⟨v, some c, some p⟩) p
                  (fun nd => { nd with next := some nid })) c
                  (fun nd => { nd with prev := some nid }),
                s.head, s.tail, s.length + 1, s.nextId + 1⟩
        | none => some ⟨s.nodes, s.head, s.tail, s.length + 1, s.nextId + 1⟩
      | none => some ⟨s.nodes, s.head, s.tail, s.length + 1, s.nextId + 1⟩
    | none => some ⟨s.nodes, s.head, s.tail, s.length + 1, s.nextId + 1⟩

/-- The unlink sequence inside `DoublyLinkedList.delete` (lines 159-172):
bypass the node in both directions, moving `_head`/`_tail` at the ends, and
drop the node. -/
def dllUnlink (s : DLL) (id : Nat) (nd : DNode) : DLL :=
  let nodes1 := match nd.prev with
    | some p => mupd s.nodes p (fun x => { x with next := nd.next })
    | none => s.nodes
  let head1 := match nd.prev with
    | some _ => s.head
    | none => nd.next
  let nodes2 := match nd.next with
    | some nx => mupd nodes1 nx (fun x => { x with prev := nd.prev })
    | none => nodes1
  let tail1 := match nd.next with
    | some _ => s.tail
    | none => nd.prev
  ⟨mdel nodes2 id, head1, tail1, s.length - 1, s.nextId⟩

/-- The `while current:` search loop of `DoublyLinkedList.delete`
(lines 147-177).  A fuel of `s.length` always suffices on reachable states,
where the walk visits each node once and then reaches `None`. -/
def dllDeleteLoop (s : DLL) (key : Int) : Nat → Option Nat → DLL × Bool
  | _, none => (s, false)
  | 0, some _ => (s, false)
  | fuel + 1, some id =>
    match mget s.nodes id with
    | none => (s, false)
    | some nd =>
      if nd.data = key then (dllUnlink s id nd, true)
      else dllDeleteLoop s key fuel nd.next

/-- `DoublyLinkedList.delete` (lines 147-177): returns the new state and
whether a node was removed. -/
def dllDelete (s : DLL) (key : Int) : DLL × Bool :=
  dllDeleteLoop s key s.length s.head

/-- `DoublyLinkedList.pop_front` (lines 179-202): `IndexError` iff the list
is empty, else detach the head node and return its data. -/
def dllPopFront (s : DLL) : Option (Int × DLL) :=
  match s.head with
  | none => none
  | some h =>
    match mget s.nodes h with
    | none => none
    | some nd =>
      let nodes1 := match nd.next with
        | some h2 => mupd s.nodes h2 (fun x => { x with prev := none })
        | none => s.nodes
      let tail1 := match nd.next with
        | some _ => s.tail
        | none => none
      some (nd.data, ⟨mdel nodes1 h, nd.next, tail1, s.length - 1, s.nextId⟩)

/-- `DoublyLinkedList.peek_front` (lines 256-268). -/
def dllPeekFront (s : DLL) : Option Int :=
  match s.head with
  | none => none
  | some h => (mget s.nodes h).map DNode.data

/-- `DoublyLinkedList.peek_back` (lines 270-282). -/
def dllPeekBack (s : DLL) : Option Int :=
  match s.tail with
  | none => none
  | some t => (mget s.nodes t).map DNode.data

/-- `DoublyLinkedList.get` (lines 223-254): bounds check against `_length`,
direction-optimised guarded walk, `current.data` when the walk ends on a
node, trailing fallback raise otherwise. -/
def dllGet (s : DLL) (i : Int) : Option Int :=
  if i < 0 ∨ (s.length : Int) ≤ i then none
  else
    let k := i.toNat
    let cur := if k ≤ s.length / 2 then walkNext s s.head k
               else walkPrev s s.tail (s.length - 1 - k)
    match cur with
    | some id => (mget s.nodes id).map DNode.data
    | none => none

/-- `DoublyLinkedList.traverse` (lines 303-315): the data of the nodes
reachable from `_head` in link order (fuel `s.length` suffices on reachable
states). -/
def dllTraverseLoop (s : DLL) : Nat → Option Nat → List Int
  | _, none => []
  | 0, some _ => []
  | fuel + 1, some id =>
    match mget s.nodes id with
    | none => []
    | some nd => nd.data :: dllTraverseLoop s fuel nd.next

/-- `DoublyLinkedList.traverse`. -/
def dllTraverse (s : DLL) : List Int :=
  dllTraverseLoop s s.length s.head

/-- The mutating operations named by the symmetric-link claim. -/
inductive DllOp where
  | append (v : Int)
  | prepend (v : Int)
  | insert (i : Int) (v : Int)
  | delete (key : Int)
  | popFront
deriving DecidableEq

/-- Apply one operation; a raising call (`insert` out of bounds, `pop_front`
on empty) leaves the state unchanged, as in the source, where the exception
propagates before any mutation. -/
def dllApply (s : DLL) : DllOp → DLL
  | .append v => dllAppend s v
  | .prepend v => dllPrepend s v
  | .insert i v =>
    match dllInsert s i v with
    | some s2 => s2
    | none => s
  | .delete key => (dllDelete s key).1
  | .popFront =>
    match dllPopFront s with
    | some (_, s2) => s2
    | none => s

/-- Run a sequence of operations from the empty list. -/
def dllRun (ops : List DllOp) : DLL :=
  ops.foldl dllApply dllEmpty

/-- The symmetric-link property of the claim: every node `n` with
`n.next = m` has `m.prev = n`, the head node (if any) has no predecessor and
the tail node (if any) has no successor. -/
def SymLinked (s : DLL) : Prop :=
  (∀ p ∈ s.nodes, ∀ b, p.2.next = some b →
    ∃ nb, mget s.nodes b = some nb ∧ nb.prev = some p.1) ∧
  (∀ h, s.head = some h → ∃ nd, mget s.nodes h = some nd ∧ nd.prev = none) ∧
  (∀ t, s.tail = some t → ∃ nd, mget s.nodes t = some nd ∧ nd.next = none)

/-- Representation invariant of reachable states: the node heap is exactly a
doubly linked chain of distinct identifiers `ids`, `head`/`tail` are its
ends, `_length` is its length, and all identifiers are below `nextId`. -/
structure DllChain (s : DLL) (ids : List Nat) : Prop where
  nodup : ids.Nodup
  head_eq : s.head = ids.head?
  tail_eq : s.tail = ids.getLast?
  len_eq : s.length = ids.length
  fresh : ∀ id ∈ ids, id < s.nextId
  keys : ∀ p ∈ s.nodes, p.1 ∈ ids
  keys_nodup : (s.nodes.map Prod.fst).Nodup
  link : ∀ k (hk : k < ids.length), ∃ nd,
    mget s.nodes ids[k] = some nd ∧
    nd.next = ids[k + 1]? ∧
    nd.prev = (if k = 0 then none else ids[k - 1]?)

/-- The data stored along a list of node identifiers (used to relate
`traverse` to the chain of a well-formed list). -/
def dllDataList (s : DLL) (ids : List Nat) : List Int :=
  ids.map (fun id => ((mget s.nodes id).map DNode.data).getD 0)

/-! ## Queue (C6)

`src/data_structures/queues/queue.py`: a thin wrapper around
`DoublyLinkedList`; its state is the backing list. -/

/-- `Queue.enqueue` (lines 31-38): `self._items.append(item)`. -/
def queueEnqueue (s : DLL) (v : Int) : DLL := dllAppend s v

/-- `Queue.dequeue` (lines 40-52): raise on empty, else `pop_front`. -/
def queueDequeue (s : DLL) : Option (Int × DLL) :=
  if dllIsEmpty s then none else dllPopFront s

/-- `Queue.front` (lines 61-73): raise on empty, else `peek_front`. -/
def queueFront (s : DLL) : Option Int :=
  if dllIsEmpty s then none else dllPeekFront s

/-- `Queue.back` (lines 75-87): raise on empty, else `peek_back`. -/
def queueBack (s : DLL) : Option Int :=
  if dllIsEmpty s then none else dllPeekBack s

/-! ## Graph (C4)

`src/data_structures/graphs/graph.py`.  `_adj_list` is a dict from value to
`Node`; each `Node` holds a set of neighbour nodes.  The model keeps the dict
as an insertion-ordered association list from value to the list of neighbour
values (the set; membership is all that matters, since both traversals sort
the neighbours by value before use). -/

structure GraphS where
  adj : List (Int × List Int)
deriving DecidableEq

/-- Dict lookup `self._adj_list[value]` / containment check. -/
def gLookup : List (Int × List Int) → Int → Option (List Int)
  | [], _ => none
  | (u, ns) :: rest, v => if u = v then some ns else gLookup rest v

/-- The dict keys, in insertion order. -/
def gKeys (g : GraphS) : List Int := g.adj.map Prod.fst

/-- `value in self._adj_list`. -/
def gContains (g : GraphS) (v : Int) : Bool := (gLookup g.adj v).isSome

/-- The neighbour set of `v` (empty for an absent node). -/
def adjOf (g : GraphS) (v : Int) : List Int := (gLookup g.adj v).getD []

/-- `Graph.add_node` (lines 78-86): idempotent insert. -/
def addNode (g : GraphS) (v : Int) : GraphS :=
  if gContains g v then g else ⟨g.adj ++ [(v, [])]⟩

/-- `set.add` on a neighbour set: membership-based, no duplicates. -/
def setAdd (l : List Int) (w : Int) : List Int :=
  if w ∈ l then l else l ++ [w]

/-- Point update of one node's neighbour set. -/
def gUpdate (g : GraphS) (v : Int) (f : List Int → List Int) : GraphS :=
  ⟨g.adj.map (fun p => if p.1 = v then (p.1, f p.2) else p)⟩

/-- `Graph.add_edge` (lines 88-106): ensure both endpoints, add `v2` to
`v1`'s neighbours, and symmetrically when undirected. -/
def addEdge (g : GraphS) (u v : Int) (directed : Bool) : GraphS :=
  let g2 := addNode (addNode g u) v
  let g3 := gUpdate g2 u (fun ns => setAdd ns v)
  if directed then g3 else gUpdate g3 v (fun ns => setAdd ns u)

/-- `sorted(curr_node.neighbors, key=lambda x: x.value)`. -/
def sortAsc (l : List Int) : List Int := List.insertionSort (fun a b => a ≤ b) l

/-- `sorted(..., reverse=True)`. -/
def sortDesc (l : List Int) : List Int := List.insertionSort (fun a b => b ≤ a) l

/-- The inner `for neighbor in sorted(...)` loop of `Graph.bfs`
(lines 203-206): mark unseen neighbours and enqueue them. -/
def bfsVisit : List Int → List Int → List Int → List Int × List Int
  | [], seen, q => (seen, q)
  | w :: ws, seen, q =>
    if w ∈ seen then bfsVisit ws seen q
    else bfsVisit ws (seen ++ [w]) (q ++ [w])

/-- The `while not queue.is_empty():` loop of `Graph.bfs` (lines 199-208).
Every iteration dequeues one value; a fuel of `2 * |nodes| + 1` always
drains the queue on well-formed graphs. -/
def bfsLoop (g : GraphS) : Nat → List Int → List Int → List Int → List Int
  | _, [], _, res => res
  | 0, _ :: _, _, res => res
  | fuel + 1, v :: q, seen, res =>
    let p := bfsVisit (sortAsc (adjOf g v)) seen q
    bfsLoop g fuel p.2 p.1 (res ++ [v])

/-- `Graph.bfs` (lines 181-208): empty result for an absent start, else the
queue-based traversal seeded with the start value. -/
def graphBfs (g : GraphS) (s : Int) : List Int :=
  if gContains g s then bfsLoop g (2 * g.adj.length + 1) [s] [s] [] else []

/-- The inner push loop of `Graph.dfs` (lines 235-243): push the
still-unseen neighbours in descending value order (so the smallest ends on
top of the stack). -/
def dfsPush (seen : List Int) : List Int → List Int → List Int
  | [], st => st
  | w :: ws, st => dfsPush seen ws (if w ∈ seen then st else w :: st)

/-- Total number of stored neighbour references; bounds how many pushes one
`dfs` iteration can perform. -/
def sumDeg (g : GraphS) : Nat := (g.adj.map (fun p => p.2.length)).sum

/-- The `while not stack.is_empty():` loop of `Graph.dfs` (lines 228-244):
pop, skip if seen, else mark+emit and push unseen neighbours. -/
def dfsLoop (g : GraphS) : Nat → List Int → List Int → List Int → List Int
  | _, [], _, res => res
  | 0, _ :: _, _, res => res
  | fuel + 1, v :: st, seen, res =>
    if v ∈ seen then dfsLoop g fuel st seen res
    else
      let seen2 := seen ++ [v]
      let st2 := dfsPush seen2 (sortDesc (adjOf g v)) st
      dfsLoop g fuel st2 seen2 (res ++ [v])

/-- Fuel that always drains the DFS stack on well-formed graphs. -/
def dfsFuel (g : GraphS) : Nat := 1 + (sumDeg g + 1) * g.adj.length

/-- `Graph.dfs` (lines 210-245). -/
def graphDfs (g : GraphS) (s : Int) : List Int :=
  if gContains g s then dfsLoop g (dfsFuel g) [s] [] [] else []

/-- Well-formedness maintained by the graph constructors: distinct keys, and
every neighbour set is duplicate-free and refers to existing nodes. -/
def GraphWf (g : GraphS) : Prop :=
  (gKeys g).Nodup ∧ ∀ p ∈ g.adj, p.2.Nodup ∧ ∀ w ∈ p.2, w ∈ gKeys g

instance : DecidablePred GraphWf := fun g => by unfold GraphWf; infer_instance

/-- Reachability along stored neighbour references. -/
inductive Reach (g : GraphS) (s : Int) : Int → Prop
  | refl : Reach g s s
  | step : ∀ {u v}, Reach g s u → v ∈ adjOf g u → Reach g s v

/-- The spec's worked example: undirected edges `(1,2), (2,3), (1,4)`. -/
def exampleGraph : GraphS :=
  addEdge (addEdge (addEdge ⟨[]⟩ 1 2 false) 2 3 false) 1 4 false

/-! # Theorems -/

/-! ## C1: heap comparison strategies -/

/-- C1.  The two `Heap` subclasses defined inside `heap.py` compare as the
claim states (`MaxHeap` by `>`, `MinHeap` by `<`); but the claim quantifies
over every `MaxHeap`/`MinHeap` subclass in the repository, and the
subclasses in `max_heap.py` / `min_heap.py` have the two comparisons
swapped: at `a = 2, b = 1` the `max_heap.py` strategy answers `false`
although `2 > 1`, and at `a = 1, b = 2` the `min_heap.py` strategy answers
`false` although `1 < 2`. -/
theorem claim1_heap_comparators :
    (∀ a b : Int, heapPyMaxIsBetter a b = decide (a > b)) ∧
    (∀ a b : Int, heapPyMinIsBetter a b = decide (a < b)) ∧
    maxHeapPyIsBetter 2 1 = false ∧ ((2 : Int) > 1) ∧
    minHeapPyIsBetter 1 2 = false ∧ ((1 : Int) < 2) :=
  ⟨fun _ _ => rfl, fun _ _ => rfl, by decide, by decide, by decide, by decide⟩

/-! ## C2: BST inorder traversal -/

/-- C2.  Inserting `[50,30,20,40,70,60,80]` and running the iterative
`inorder` of the source yields `[20]`, not the ascending list
`[20,30,40,50,60,70,80]` the claim (and the method's own docstring)
promises: the loop guard `while current or not stack.is_empty:` tests the
bound method `stack.is_empty` itself — always truthy — so the loop stops as
soon as a popped node has no right child.  The recursive reference
traversal on the same tree does produce the sorted list. -/
theorem claim2_bst_inorder_bug :
    BTree.inorder (BTree.insertList .nil [50, 30, 20, 40, 70, 60, 80]) = [20] ∧
    BTree.inorderSpec (BTree.insertList .nil [50, 30, 20, 40, 70, 60, 80]) =
      [20, 30, 40, 50, 60, 70, 80] ∧
    BTree.inorder (BTree.insertList .nil [50, 30, 20, 40, 70, 60, 80]) ≠
      BTree.inorderSpec (BTree.insertList .nil [50, 30, 20, 40, 70, 60, 80]) := by
  refine ⟨by decide, by decide, by decide⟩

/-! ## C8: hash map -/

lemma hmIndex_lt (hf : Int → Int) (cap : Nat) (k : Int) (hcap : 0 < cap) :
    hmIndex hf cap k < cap := by
  unfold hmIndex
  have h1 : 0 < (cap : Int) := by exact_mod_cast hcap
  have h2 := Int.emod_lt_of_pos (hf k) h1
  have h3 : 0 ≤ hf k % (cap : Int) := Int.emod_nonneg (hf k) (by omega)
  omega

lemma hmPutBucket_find_self (k v : Int) (b : List (Int × Int)) :
    hmFindBucket k (hmPutBucket k v b).1 = some v := by
  induction b with
  | nil => simp [hmPutBucket, hmFindBucket]
  | cons p rest ih =>
    obtain ⟨k0, v0⟩ := p
    by_cases hk : k0 = k
    · subst hk; simp [hmPutBucket, hmFindBucket]
    · simp [hmPutBucket, hmFindBucket, hk, ih]

lemma hmPutBucket_find_other (k v k2 : Int) (b : List (Int × Int)) (hne : k2 ≠ k) :
    hmFindBucket k2 (hmPutBucket k v b).1 = hmFindBucket k2 b := by
  have hkk : ¬ k = k2 := fun h => hne h.symm
  induction b with
  | nil => simp [hmPutBucket, hmFindBucket, hkk]
  | cons p rest ih =>
    obtain ⟨k0, v0⟩ := p
    by_cases hk : k0 = k
    · subst hk
      simp [hmPutBucket, hmFindBucket, hkk]
    · simp [hmPutBucket, hmFindBucket, hk, ih]

lemma hmPutBucket_found (k v : Int) (b : List (Int × Int)) :
    (hmPutBucket k v b).2 = (hmFindBucket k b).isSome := by
  induction b with
  | nil => simp [hmPutBucket, hmFindBucket]
  | cons p rest ih =>
    obtain ⟨k0, v0⟩ := p
    by_cases hk : k0 = k
    · subst hk; simp [hmPutBucket, hmFindBucket]
    · simp [hmPutBucket, hmFindBucket, hk, ih]

lemma hmGet_put_self (hf : Int → Int) (m : HashMapS) (k v : Int) (hwf : hmWf m) :
    hmGet hf (hmPut hf m k v) k = some v := by
  obtain ⟨hlen, hcap⟩ := hwf
  have hidx : hmIndex hf m.capacity k < m.buckets.length := by
    rw [hlen]; exact hmIndex_lt hf m.capacity k hcap
  unfold hmGet hmPut
  simp only [List.getD_eq_getElem?_getD]
  rw [List.getElem?_set_self hidx]
  simp [hmPutBucket_find_self]

/-- C8.  `put` then `get` round-trips, `put` leaves every other key's lookup
unchanged (so colliding keys stay individually retrievable), overwriting an
existing key keeps `_length` and makes `get` return the new value; and the
spec's collision example (capacity 8, keys 0, 8, 16 in bucket 0 under the
identity hash) behaves as stated. -/
theorem claim8_hashmap (hf : Int → Int) (m : HashMapS) (k v v2 : Int)
    (hwf : hmWf m) :
    hmGet hf (hmPut hf m k v) k = some v ∧
    (∀ k2, k2 ≠ k → hmGet hf (hmPut hf m k v) k2 = hmGet hf m k2) ∧
    (hmContains hf m k = true →
      (hmPut hf m k v2).length = m.length ∧
      hmGet hf (hmPut hf m k v2) k = some v2) ∧
    (hmGet id (hmPut id (hmPut id (hmPut id (hmEmpty 8) 0 100) 8 200) 16 300) 0 =
        some 100 ∧
      hmGet id (hmPut id (hmPut id (hmPut id (hmEmpty 8) 0 100) 8 200) 16 300) 8 =
        some 200 ∧
      hmGet id (hmPut id (hmPut id (hmPut id (hmEmpty 8) 0 100) 8 200) 16 300) 16 =
        some 300 ∧
      (hmPut id (hmPut id (hmPut id (hmEmpty 8) 0 100) 8 200) 16 300).length = 3) := by
  obtain ⟨hlen, hcap⟩ := hwf
  have hidx : ∀ key : Int, hmIndex hf m.capacity key < m.buckets.length := by
    intro key; rw [hlen]; exact hmIndex_lt hf m.capacity key hcap
  refine ⟨hmGet_put_self hf m k v ⟨hlen, hcap⟩, ?_, ?_, by decide⟩
  · intro k2 hne
    unfold hmGet hmPut
    simp only [List.getD_eq_getElem?_getD]
    by_cases hsame : hmIndex hf m.capacity k2 = hmIndex hf m.capacity k
    · rw [hsame, List.getElem?_set_self (hidx k)]
      simp [hmPutBucket_find_other _ _ _ _ hne]
    · rw [List.getElem?_set_ne (fun h => hsame h.symm)]
  · intro hcont
    constructor
    · unfold hmPut
      unfold hmContains hmGet at hcont
      simp only [List.getD_eq_getElem?_getD] at hcont ⊢
      rw [hmPutBucket_found]
      simp [hcont]
    · exact hmGet_put_self hf m k v2 ⟨hlen, hcap⟩

/-- Witness for C8 at a concrete map: the empty capacity-8 map is
well-formed, and the claimed equations hold after `put 5 1`. -/
theorem claim8_hashmap_witness :
    hmGet id (hmPut id (hmPut id (hmEmpty 8) 5 1) 5 7) 5 = some 7 := by
  have h := claim8_hashmap id (hmPut id (hmEmpty 8) 5 1) 5 1 7 (by decide)
  exact (h.2.2.1 (by decide)).2

/-! ## Heap lemmas (towards C3, C6, C9) -/

lemma geti_eq_getElem (arr : List Int) (k : Nat) (h : k < arr.length) :
    geti arr k = arr[k] := by
  simp [geti, List.getD_eq_getElem?_getD, List.getElem?_eq_getElem h]

lemma geti_set_self (arr : List Int) (k : Nat) (x : Int) (h : k < arr.length) :
    geti (arr.set k x) k = x := by
  simp [geti, List.getD_eq_getElem?_getD, List.getElem?_set_self h]

lemma geti_set_ne (arr : List Int) (k j : Nat) (x : Int) (h : k ≠ j) :
    geti (arr.set k x) j = geti arr j := by
  simp [geti, List.getD_eq_getElem?_getD, List.getElem?_set_ne h]

lemma listSwap_length (arr : List Int) (i j : Nat) :
    (listSwap arr i j).length = arr.length := by
  simp [listSwap]

lemma geti_listSwap (arr : List Int) (i j k : Nat)
    (hi : i < arr.length) (hj : j < arr.length) :
    geti (listSwap arr i j) k =
      if k = j then geti arr i else if k = i then geti arr j else geti arr k := by
  unfold listSwap
  by_cases hkj : k = j
  · subst hkj
    rw [if_pos rfl, geti_set_self _ _ _ (by simpa using hj)]
  · rw [if_neg hkj, geti_set_ne _ _ _ _ (fun h => hkj h.symm)]
    by_cases hki : k = i
    · subst hki; rw [if_pos rfl, geti_set_self _ _ _ hi]
    · rw [if_neg hki, geti_set_ne _ _ _ _ (fun h => hki h.symm)]

lemma perm_set_cons_eraseIdx :
    ∀ (l : List Int) (i : Nat) (a : Int), i < l.length →
      (l.set i a).Perm (a :: l.eraseIdx i)
  | [], i, a, h => absurd h (by simp)
  | x :: xs, 0, a, _ => by simp
  | x :: xs, i + 1, a, h => by
    simp only [List.set_cons_succ, List.eraseIdx_cons_succ]
    exact ((perm_set_cons_eraseIdx xs i a (by simpa using h)).cons x).trans
      (List.Perm.swap a x _)

lemma perm_cons_eraseIdx_self :
    ∀ (l : List Int) (i : Nat), i < l.length →
      l.Perm (geti l i :: l.eraseIdx i)
  | [], i, h => absurd h (by simp)
  | x :: xs, 0, _ => by simp [geti]
  | x :: xs, i + 1, h => by
    have : geti (x :: xs) (i + 1) = geti xs i := by simp [geti]
    rw [this]
    simp only [List.eraseIdx_cons_succ]
    exact ((perm_cons_eraseIdx_self xs i (by simpa using h)).cons x).trans
      (List.Perm.swap _ x _)

lemma eraseIdx_set_lt :
    ∀ (l : List Int) (i j : Nat) (b : Int), i < j →
      (l.set i b).eraseIdx j = (l.eraseIdx j).set i b
  | [], _, _, _, _ => by simp
  | x :: xs, i, j, b, hij => by
    match j, hij with
    | j + 1, hij =>
      match i with
      | 0 => simp
      | i + 1 =>
        simp only [List.set_cons_succ, List.eraseIdx_cons_succ]
        rw [eraseIdx_set_lt xs i j b (by omega)]

lemma geti_eraseIdx_lt :
    ∀ (l : List Int) (i j : Nat), i < j → geti (l.eraseIdx j) i = geti l i
  | [], _, _, _ => by simp
  | x :: xs, i, j, hij => by
    match j, hij with
    | j + 1, hij =>
      match i with
      | 0 => simp [geti]
      | i + 1 =>
        simp only [List.eraseIdx_cons_succ]
        have h1 : geti (x :: xs.eraseIdx j) (i + 1) = geti (xs.eraseIdx j) i := by
          simp [geti]
        have h2 : geti (x :: xs) (i + 1) = geti xs i := by simp [geti]
        rw [h1, h2, geti_eraseIdx_lt xs i j (by omega)]

lemma listSwap_perm (arr : List Int) (i j : Nat) (hij : i < j) (hj : j < arr.length) :
    (listSwap arr i j).Perm arr := by
  have hi : i < arr.length := lt_trans hij hj
  have h1 : (listSwap arr i j).Perm (geti arr i :: (arr.set i (geti arr j)).eraseIdx j) :=
    perm_set_cons_eraseIdx _ j _ (by simpa using hj)
  rw [eraseIdx_set_lt _ _ _ _ hij] at h1
  have hi2 : i < (arr.eraseIdx j).length := by
    rw [List.length_eraseIdx_of_lt hj]; omega
  have h2 : ((arr.eraseIdx j).set i (geti arr j)).Perm
      (geti arr j :: (arr.eraseIdx j).eraseIdx i) :=
    perm_set_cons_eraseIdx _ i _ hi2
  have h3 : arr.Perm (geti arr j :: arr.eraseIdx j) := perm_cons_eraseIdx_self arr j hj
  have h4 : (arr.eraseIdx j).Perm (geti arr i :: (arr.eraseIdx j).eraseIdx i) := by
    have := perm_cons_eraseIdx_self (arr.eraseIdx j) i hi2
    rwa [geti_eraseIdx_lt arr i j hij] at this
  have h5 : (listSwap arr i j).Perm
      (geti arr i :: geti arr j :: (arr.eraseIdx j).eraseIdx i) :=
    h1.trans (h2.cons _)
  have h6 : arr.Perm (geti arr j :: geti arr i :: (arr.eraseIdx j).eraseIdx i) :=
    h3.trans (h4.cons _)
  exact h5.trans ((List.Perm.swap _ _ _).trans h6.symm)

lemma pickChild_eq_self (isB : Int → Int → Bool) (arr : List Int) (n i : Nat)
    (h : pickChild isB arr n i = i) :
    (2 * i + 1 < n → isB (geti arr (2 * i + 1)) (geti arr i) = false) ∧
    (2 * i + 2 < n → isB (geti arr (2 * i + 2)) (geti arr i) = false) := by
  have h1 : pickChild1 isB arr n i = i := by
    unfold pickChild at h
    split at h
    · omega
    · exact h
  have h1f : ¬ (2 * i + 1 < n ∧ isB (geti arr (2 * i + 1)) (geti arr i) = true) := by
    intro hc
    unfold pickChild1 at h1
    rw [if_pos hc] at h1
    omega
  have h2f : ¬ (2 * i + 2 < n ∧ isB (geti arr (2 * i + 2)) (geti arr i) = true) := by
    intro hc
    unfold pickChild at h
    rw [h1] at h
    rw [if_pos hc] at h
    omega
  constructor
  · intro hl
    cases hb : isB (geti arr (2 * i + 1)) (geti arr i)
    · rfl
    · exact absurd ⟨hl, hb⟩ h1f
  · intro hr
    cases hb : isB (geti arr (2 * i + 2)) (geti arr i)
    · rfl
    · exact absurd ⟨hr, hb⟩ h2f

lemma pickChild_spec_swap (isB : Int → Int → Bool)
    (hA : ∀ a b, isB a b = true → isB b a = false)
    (hT : ∀ a b c, isB a b = true → isB b c = true → isB a c = true)
    (arr : List Int) (n i : Nat)
    (h : pickChild isB arr n i ≠ i) :
    pickChild isB arr n i < n ∧ i < pickChild isB arr n i ∧
    ((pickChild isB arr n i - 1) / 2 = i) ∧
    isB (geti arr (pickChild isB arr n i)) (geti arr i) = true ∧
    (∀ o, (o = 2 * i + 1 ∨ o = 2 * i + 2) → o ≠ pickChild isB arr n i → o < n →
      isB (geti arr o) (geti arr (pickChild isB arr n i)) = false) := by
  unfold pickChild at h ⊢
  by_cases h2 : 2 * i + 2 < n ∧
      isB (geti arr (2 * i + 2)) (geti arr (pickChild1 isB arr n i)) = true
  · rw [if_pos h2] at h ⊢
    unfold pickChild1 at h2
    by_cases h1 : 2 * i + 1 < n ∧ isB (geti arr (2 * i + 1)) (geti arr i) = true
    · rw [if_pos h1] at h2
      refine ⟨h2.1, by omega, by omega, hT _ _ _ h2.2 h1.2, ?_⟩
      intro o ho hone _
      have : o = 2 * i + 1 := by omega
      subst this
      exact hA _ _ h2.2
    · rw [if_neg h1] at h2
      refine ⟨h2.1, by omega, by omega, h2.2, ?_⟩
      intro o ho hone holt
      have : o = 2 * i + 1 := by omega
      subst this
      cases hb : isB (geti arr (2 * i + 1)) (geti arr (2 * i + 2))
      · rfl
      · exact absurd ⟨holt, hT _ _ _ hb h2.2⟩ h1
  · rw [if_neg h2] at h ⊢
    unfold pickChild1 at h2 h ⊢
    by_cases h1 : 2 * i + 1 < n ∧ isB (geti arr (2 * i + 1)) (geti arr i) = true
    · rw [if_pos h1] at h2 ⊢
      refine ⟨h1.1, by omega, by omega, h1.2, ?_⟩
      intro o ho hone holt
      have : o = 2 * i + 2 := by omega
      subst this
      cases hb : isB (geti arr (2 * i + 2)) (geti arr (2 * i + 1))
      · rfl
      · exact absurd ⟨holt, hb⟩ h2
    · rw [if_neg h1] at h
      exact absurd rfl h

lemma siftDown_length (isB : Int → Int → Bool) (arr : List Int) (n i : Nat) :
    (siftDown isB arr n i).length = arr.length := by
  induction arr, n, i using siftDown.induct isB with
  | case1 arr n i h => rw [siftDown, dif_pos h]
  | case2 arr n i h hb1 hlt ih => rw [siftDown, dif_neg h, ih, listSwap_length]

lemma siftDown_perm (isB : Int → Int → Bool) (arr : List Int) (n i : Nat)
    (hn : n ≤ arr.length) : (siftDown isB arr n i).Perm arr := by
  induction arr, n, i using siftDown.induct isB with
  | case1 arr n i h => rw [siftDown, dif_pos h]
  | case2 arr n i h hb1 hlt ih =>
    rw [siftDown, dif_neg h]
    have hswap : (listSwap arr i (pickChild isB arr n i)).Perm arr :=
      listSwap_perm arr i (pickChild isB arr n i) hlt.1 (lt_of_lt_of_le hlt.2 hn)
    exact (ih (by rw [listSwap_length]; exact hn)).trans hswap

lemma siftDown_heapInv (isB : Int → Int → Bool)
    (hA : ∀ a b, isB a b = true → isB b a = false)
    (hT : ∀ a b c, isB a b = true → isB b c = true → isB a c = true)
    (arr : List Int) (n i : Nat) :
    ∀ (m : Nat), n ≤ arr.length → m ≤ i →
      (∀ j, 0 < j → j < n → m ≤ (j - 1) / 2 → (j - 1) / 2 ≠ i →
        isB (geti arr j) (geti arr ((j - 1) / 2)) = false) →
      (m < i → ∀ j, j < n → (j - 1) / 2 = i →
        isB (geti arr j) (geti arr ((i - 1) / 2)) = false) →
      ∀ j, 0 < j → j < n → m ≤ (j - 1) / 2 →
        isB (geti (siftDown isB arr n i) j)
          (geti (siftDown isB arr n i) ((j - 1) / 2)) = false := by
  induction arr, n, i using siftDown.induct isB with
  | case1 arr n i h =>
    intro m hn hmi inv1 inv2 j hj0 hjn hjm
    rw [siftDown, dif_pos h]
    by_cases hpj : (j - 1) / 2 = i
    · have hch := pickChild_eq_self isB arr n i h
      have : j = 2 * i + 1 ∨ j = 2 * i + 2 := by omega
      rw [hpj]
      rcases this with hj | hj
      · rw [hj]; exact hch.1 (hj ▸ hjn)
      · rw [hj]; exact hch.2 (hj ▸ hjn)
    · exact inv1 j hj0 hjn hjm hpj
  | case2 arr n i h hb1 hlt ih =>
    intro m hn hmi inv1 inv2 j hj0 hjn hjm
    rw [siftDown, dif_neg h]
    obtain ⟨hcn, hic, hcp, f1, f2⟩ := pickChild_spec_swap isB hA hT arr n i h
    set c := pickChild isB arr n i with hc
    have hilen : i < arr.length := by omega
    have hclen : c < arr.length := by omega
    have hget : ∀ k, geti (listSwap arr i c) k =
        if k = c then geti arr i else if k = i then geti arr c else geti arr k :=
      fun k => geti_listSwap arr i c k hilen hclen
    have hnic : ¬ i = c := by omega
    refine ih m (by rw [listSwap_length]; exact hn) (by omega) ?_ ?_ j hj0 hjn hjm
    · -- inv1 for the swapped array at pivot c
      intro j2 h0 h2n hm2 hne2
      by_cases hj2c : j2 = c
      · rw [hj2c, hcp, hget c, if_pos rfl, hget i, if_neg hnic, if_pos rfl]
        exact hA _ _ f1
      · by_cases hpj2i : (j2 - 1) / 2 = i
        · have hj2 : j2 = 2 * i + 1 ∨ j2 = 2 * i + 2 := by omega
          have hj2nei : ¬ j2 = i := by omega
          rw [hpj2i, hget j2, if_neg hj2c, if_neg hj2nei, hget i, if_neg hnic,
            if_pos rfl]
          exact f2 j2 hj2 hj2c h2n
        · by_cases hj2i : j2 = i
          · rw [hj2i] at hm2 ⊢
            have hilt : 0 < i := by omega
            rw [hget i, if_neg hnic, if_pos rfl, hget ((i - 1) / 2),
              if_neg (by omega : ¬ (i - 1) / 2 = c),
              if_neg (by omega : ¬ (i - 1) / 2 = i)]
            exact inv2 (by omega) c hcn hcp
          · rw [hget j2, if_neg hj2c, if_neg hj2i, hget ((j2 - 1) / 2),
              if_neg hne2, if_neg hpj2i]
            exact inv1 j2 h0 h2n hm2 hpj2i
    · -- inv2 for the swapped array at pivot c
      intro _ j2 h2n hpar
      have hj2 : j2 = 2 * c + 1 ∨ j2 = 2 * c + 2 := by omega
      have hj2nec : ¬ j2 = c := by omega
      have hj2nei : ¬ j2 = i := by omega
      rw [hcp, hget j2, if_neg hj2nec, if_neg hj2nei, hget i, if_neg hnic, if_pos rfl]
      have hres := inv1 j2 (by omega) h2n (by omega) (by omega)
      rw [hpar] at hres
      exact hres

lemma isB_irrefl (isB : Int → Int → Bool)
    (hA : ∀ a b, isB a b = true → isB b a = false) (a : Int) : isB a a = false := by
  cases hb : isB a a
  · rfl
  · have hfa := hA a a hb; rw [hfa] at hb; exact hb.symm

lemma geti_dropLast (l : List Int) (j : Nat) (h : j < l.length - 1) :
    geti l.dropLast j = geti l j := by
  simp only [geti, List.getD_eq_getElem?_getD, List.getElem?_dropLast]
  rw [if_pos h]

lemma dropLast_append_getLastD (l : List Int) (h : l ≠ []) :
    l.dropLast ++ [l.getLast?.getD 0] = l := by
  rw [List.getLast?_eq_getLast l h]
  simp [List.dropLast_append_getLast]

lemma heapifyLoop_spec (isB : Int → Int → Bool)
    (hA : ∀ a b, isB a b = true → isB b a = false)
    (hT : ∀ a b c, isB a b = true → isB b c = true → isB a c = true)
    (n : Nat) :
    ∀ (k : Nat) (arr : List Int), n ≤ arr.length →
      (∀ j, 0 < j → j < n → k ≤ (j - 1) / 2 →
        isB (geti arr j) (geti arr ((j - 1) / 2)) = false) →
      (heapifyLoop isB n k arr).Perm arr ∧
      (heapifyLoop isB n k arr).length = arr.length ∧
      (∀ j, 0 < j → j < n →
        isB (geti (heapifyLoop isB n k arr) j)
          (geti (heapifyLoop isB n k arr) ((j - 1) / 2)) = false)
  | 0, arr, hn, hinv => by
    refine ⟨List.Perm.refl _, rfl, ?_⟩
    intro j hj0 hjn
    exact hinv j hj0 hjn (Nat.zero_le _)
  | k + 1, arr, hn, hinv => by
    have hinv1 : ∀ j, 0 < j → j < n → k ≤ (j - 1) / 2 → (j - 1) / 2 ≠ k →
        isB (geti arr j) (geti arr ((j - 1) / 2)) = false := by
      intro j hj0 hjn hk hne
      exact hinv j hj0 hjn (by omega)
    have hinv2 : k < k → ∀ j, j < n → (j - 1) / 2 = k →
        isB (geti arr j) (geti arr ((k - 1) / 2)) = false := by
      intro hk; omega
    have hsd := siftDown_heapInv isB hA hT arr n k k hn (le_refl k) hinv1 hinv2
    have hlen2 : n ≤ (siftDown isB arr n k).length := by
      rw [siftDown_length]; exact hn
    have ih := heapifyLoop_spec isB hA hT n k (siftDown isB arr n k) hlen2 hsd
    refine ⟨?_, ?_, ?_⟩
    · show (heapifyLoop isB n k (siftDown isB arr n k)).Perm arr
      exact ih.1.trans (siftDown_perm isB arr n k hn)
    · show (heapifyLoop isB n k (siftDown isB arr n k)).length = arr.length
      rw [ih.2.1, siftDown_length]
    · exact ih.2.2

lemma heapify_spec (isB : Int → Int → Bool)
    (hA : ∀ a b, isB a b = true → isB b a = false)
    (hT : ∀ a b c, isB a b = true → isB b c = true → isB a c = true)
    (arr : List Int) :
    (heapify isB arr).Perm arr ∧ IsHeapProp isB (heapify isB arr) := by
  have hinit : ∀ j, 0 < j → j < arr.length → arr.length / 2 ≤ (j - 1) / 2 →
      isB (geti arr j) (geti arr ((j - 1) / 2)) = false := by
    intro j hj0 hjn hdiv
    omega
  have h := heapifyLoop_spec isB hA hT arr.length (arr.length / 2) arr (le_refl _) hinit
  refine ⟨h.1, ?_⟩
  intro j hjlen hj0
  unfold heapify at hjlen ⊢
  rw [h.2.1] at hjlen
  exact h.2.2 j hj0 hjlen

lemma popHeap_spec (isB : Int → Int → Bool)
    (hA : ∀ a b, isB a b = true → isB b a = false)
    (hT : ∀ a b c, isB a b = true → isB b c = true → isB a c = true)
    (st : List Int) (hne : st ≠ []) (hheap : IsHeapProp isB st) :
    ∃ st2, popHeap isB st = some (geti st 0, st2) ∧ st2.length + 1 = st.length ∧
      st.Perm (geti st 0 :: st2) ∧ IsHeapProp isB st2 := by
  obtain ⟨x, xs, rfl⟩ := List.exists_cons_of_ne_nil hne
  by_cases hrest : (x :: xs).dropLast.isEmpty
  · have hxs : xs = [] := by
      have h1 := List.isEmpty_iff.mp hrest
      have h2 : (x :: xs).dropLast.length = xs.length := by simp
      rw [h1] at h2
      simp only [List.length_nil] at h2
      exact List.eq_nil_of_length_eq_zero h2.symm
    subst hxs
    refine ⟨[], by simp [popHeap, geti], by simp, by simp [geti], ?_⟩
    intro j hj
    simp at hj
  · -- at least two elements
    have hlen : (x :: xs).dropLast.length = xs.length := by simp
    have hpos : 0 < (x :: xs).dropLast.length := by
      rcases List.isEmpty_iff.mpr with _
      have : (x :: xs).dropLast ≠ [] := fun hh => hrest (by simp [hh])
      exact List.length_pos.mpr this
    set last := (x :: xs).getLast?.getD 0 with hlast
    set rest := (x :: xs).dropLast with hrestdef
    set rest2 := rest.set 0 last with hrest2
    have hr2len : rest2.length = rest.length := by simp [hrest2]
    have hpop : popHeap isB (x :: xs) =
        some (geti (x :: xs) 0, siftDown isB rest2 rest.length 0) := by
      simp only [popHeap, hrest2, hrestdef, hlast]
      rw [if_neg (by rw [← hrestdef]; exact hrest)]
    have hstlen : (x :: xs).length = rest.length + 1 := by
      simp [hrestdef]
    -- heap property of the sifted remainder
    have hinv1 : ∀ j, 0 < j → j < rest.length → 0 ≤ (j - 1) / 2 → (j - 1) / 2 ≠ 0 →
        isB (geti rest2 j) (geti rest2 ((j - 1) / 2)) = false := by
      intro j hj0 hjn _ hne0
      have hjr : geti rest2 j = geti (x :: xs) j := by
        rw [hrest2, geti_set_ne _ _ _ _ (by omega), hrestdef,
          geti_dropLast _ _ (by simp; omega)]
      have hpr : geti rest2 ((j - 1) / 2) = geti (x :: xs) ((j - 1) / 2) := by
        rw [hrest2, geti_set_ne _ _ _ _ (fun hh => hne0 hh.symm), hrestdef,
          geti_dropLast _ _ (by simp; omega)]
      rw [hjr, hpr]
      exact hheap j (by simp; omega) hj0
    have hinv2 : (0 : Nat) < 0 → ∀ j, j < rest.length → (j - 1) / 2 = 0 →
        isB (geti rest2 j) (geti rest2 ((0 - 1) / 2)) = false := by omega
    have hsd := siftDown_heapInv isB hA hT rest2 rest.length 0 0
      (by rw [hr2len]) (le_refl 0) hinv1 hinv2
    have hsdlen : (siftDown isB rest2 rest.length 0).length = rest.length := by
      rw [siftDown_length, hr2len]
    refine ⟨siftDown isB rest2 rest.length 0, hpop, by rw [hsdlen, hstlen], ?_, ?_⟩
    · -- permutation
      obtain ⟨r0, rtl, hrr⟩ := List.exists_cons_of_ne_nil
        (List.length_pos.mp hpos : rest ≠ [])
      have hsplit : (x :: xs) = rest ++ [last] :=
        (dropLast_append_getLastD (x :: xs) (by simp)).symm
      have hg0 : geti (x :: xs) 0 = r0 := by
        rw [← geti_dropLast _ _ (by simp; omega), ← hrestdef, hrr]
        simp [geti]
      have hperm1 : (siftDown isB rest2 rest.length 0).Perm rest2 :=
        siftDown_perm isB rest2 rest.length 0 (by rw [hr2len])
      have hperm2 : rest2.Perm (last :: rest.eraseIdx 0) :=
        perm_set_cons_eraseIdx rest 0 last hpos
      have herase : rest.eraseIdx 0 = rtl := by rw [hrr]; rfl
      have hperm3 : (geti (x :: xs) 0 :: siftDown isB rest2 rest.length 0).Perm
          (r0 :: last :: rtl) := by
        rw [hg0]
        exact (hperm1.trans (hperm2.trans (by rw [herase]))).cons r0
      have hperm4 : (x :: xs).Perm (r0 :: last :: rtl) := by
        rw [hsplit, hrr]
        exact ((List.perm_append_singleton last rtl).cons r0)
      exact hperm4.trans hperm3.symm
    · -- heap property
      intro j hjlen hj0
      rw [hsdlen] at hjlen
      exact hsd j hj0 hjlen (Nat.zero_le _)

lemma heapRoot_best (isB : Int → Int → Bool)
    (hA : ∀ a b, isB a b = true → isB b a = false)
    (hN : ∀ a b c, isB a b = false → isB b c = false → isB a c = false)
    (st : List Int) (hheap : IsHeapProp isB st) :
    ∀ x ∈ st, isB x (geti st 0) = false := by
  have hidx : ∀ j, j < st.length → isB (geti st j) (geti st 0) = false := by
    intro j
    induction j using Nat.strong_induction_on with
    | _ j ih =>
      intro hj
      rcases Nat.eq_zero_or_pos j with hj0 | hj0
      · rw [hj0]; exact isB_irrefl isB hA _
      · exact hN _ _ _ (hheap j hj hj0)
          (ih ((j - 1) / 2) (by omega) (by omega))
  intro x hx
  obtain ⟨j, hjlen, hjx⟩ := List.mem_iff_getElem.mp hx
  have := hidx j hjlen
  rwa [geti_eq_getElem st j hjlen, hjx] at this

lemma drainLoop_spec (isB : Int → Int → Bool)
    (hA : ∀ a b, isB a b = true → isB b a = false)
    (hT : ∀ a b c, isB a b = true → isB b c = true → isB a c = true)
    (hN : ∀ a b c, isB a b = false → isB b c = false → isB a c = false) :
    ∀ (fuel : Nat) (st : List Int), st.length ≤ fuel → IsHeapProp isB st →
      (drainLoop isB fuel st).Perm st ∧
      (drainLoop isB fuel st).Pairwise (fun x y => isB y x = false)
  | 0, st, hfuel, _ => by
    have : st = [] := List.eq_nil_of_length_eq_zero (by omega)
    subst this
    exact ⟨List.Perm.refl _, List.Pairwise.nil⟩
  | fuel + 1, st, hfuel, hheap => by
    by_cases hst : st = []
    · subst hst
      simp only [drainLoop, popHeap]
      exact ⟨List.Perm.refl _, List.Pairwise.nil⟩
    · obtain ⟨st2, hpop, hlen, hperm, hheap2⟩ := popHeap_spec isB hA hT st hst hheap
      have hstep : drainLoop isB (fuel + 1) st = geti st 0 :: drainLoop isB fuel st2 := by
        simp only [drainLoop, hpop]
      have ih := drainLoop_spec isB hA hT hN fuel st2 (by omega) hheap2
      rw [hstep]
      constructor
      · exact (ih.1.cons (geti st 0)).trans hperm.symm
      · rw [List.pairwise_cons]
        refine ⟨?_, ih.2⟩
        intro y hy
        have hy2 : y ∈ st2 := ih.1.mem_iff.mp hy
        have hyst : y ∈ st := hperm.symm.mem_iff.mp (List.mem_cons_of_mem _ hy2)
        exact heapRoot_best isB hA hN st hheap y hyst

/-! Order facts for the two comparison strategies of `heap.py`. -/

lemma maxIsBetter_asymm : ∀ a b, heapPyMaxIsBetter a b = true → heapPyMaxIsBetter b a = false := by
  intro a b h
  simp [heapPyMaxIsBetter] at h ⊢
  omega

lemma maxIsBetter_trans : ∀ a b c, heapPyMaxIsBetter a b = true → heapPyMaxIsBetter b c = true →
    heapPyMaxIsBetter a c = true := by
  intro a b c h1 h2
  simp [heapPyMaxIsBetter] at h1 h2 ⊢
  omega

lemma maxIsBetter_negTrans : ∀ a b c, heapPyMaxIsBetter a b = false → heapPyMaxIsBetter b c = false →
    heapPyMaxIsBetter a c = false := by
  intro a b c h1 h2
  simp [heapPyMaxIsBetter] at h1 h2 ⊢
  omega

lemma minIsBetter_asymm : ∀ a b, heapPyMinIsBetter a b = true → heapPyMinIsBetter b a = false := by
  intro a b h
  simp [heapPyMinIsBetter] at h ⊢
  omega

lemma minIsBetter_trans : ∀ a b c, heapPyMinIsBetter a b = true → heapPyMinIsBetter b c = true →
    heapPyMinIsBetter a c = true := by
  intro a b c h1 h2
  simp [heapPyMinIsBetter] at h1 h2 ⊢
  omega

lemma minIsBetter_negTrans : ∀ a b c, heapPyMinIsBetter a b = false → heapPyMinIsBetter b c = false →
    heapPyMinIsBetter a c = false := by
  intro a b c h1 h2
  simp [heapPyMinIsBetter] at h1 h2 ⊢
  omega

/-! ## C3: `Heap.sort` -/

/-- C3.  On any state satisfying the heap invariant, `sort()` returns all
elements (a permutation of the internal array) in priority order —
non-increasing for `MaxHeap`, non-decreasing for `MinHeap` — and the
internal array after the call is exactly the array before the call (the
`finally` block restores the saved copy); with a fallible comparison the
restored array is the same on the error path as well. -/
theorem claim3_heap_sort (a b : List Int)
    (ha : IsHeapProp heapPyMaxIsBetter a) (hb : IsHeapProp heapPyMinIsBetter b) :
    (sortHeap heapPyMaxIsBetter a).2 = a ∧
    ((sortHeap heapPyMaxIsBetter a).1).Perm a ∧
    ((sortHeap heapPyMaxIsBetter a).1).Pairwise (fun x y => x ≥ y) ∧
    (sortHeap heapPyMinIsBetter b).2 = b ∧
    ((sortHeap heapPyMinIsBetter b).1).Perm b ∧
    ((sortHeap heapPyMinIsBetter b).1).Pairwise (fun x y => x ≤ y) ∧
    (∀ (ε : Type) (st : List Int) (isBE : Int → Int → Except ε Bool),
      (sortHeapE isBE st).2 = st) := by
  have hmax := drainLoop_spec heapPyMaxIsBetter maxIsBetter_asymm maxIsBetter_trans
    maxIsBetter_negTrans a.length a (le_refl _) ha
  have hmin := drainLoop_spec heapPyMinIsBetter minIsBetter_asymm minIsBetter_trans
    minIsBetter_negTrans b.length b (le_refl _) hb
  refine ⟨rfl, hmax.1, ?_, rfl, hmin.1, ?_, fun _ _ _ => rfl⟩
  · refine hmax.2.imp ?_
    intro x y h
    simp [heapPyMaxIsBetter] at h
    omega
  · refine hmin.2.imp ?_
    intro x y h
    simp [heapPyMinIsBetter] at h
    omega

/-- Witness for C3 at concrete heap states. -/
theorem claim3_heap_sort_witness :
    (sortHeap heapPyMaxIsBetter [25, 12, 12, 8, -2, 0, 7, -3, 5, -10]).2 =
      [25, 12, 12, 8, -2, 0, 7, -3, 5, -10] ∧
    ((sortHeap heapPyMaxIsBetter [25, 12, 12, 8, -2, 0, 7, -3, 5, -10]).1).Pairwise
      (fun x y => x ≥ y) := by
  have h := claim3_heap_sort [25, 12, 12, 8, -2, 0, 7, -3, 5, -10]
    [-10, -3, 0, 5, -2, 7, 25, 8, 12, 12] (by decide) (by decide)
  exact ⟨h.1, h.2.2.1⟩

/-! ## C9: `Heap.heapify` -/

/-- C9.  `heapify(arr)` reorders the caller's list in place into a valid
heap for the instance's comparison strategy (both for `MaxHeap` and
`MinHeap`): the result is a permutation of the argument satisfying the heap
property, and the heap's internal array (`self._heap = list(arr)`) equals
the reordered argument. -/
theorem claim9_heapify (arr : List Int) :
    (heapify heapPyMaxIsBetter arr).Perm arr ∧
    IsHeapProp heapPyMaxIsBetter (heapify heapPyMaxIsBetter arr) ∧
    heapifyRun heapPyMaxIsBetter arr =
      (heapify heapPyMaxIsBetter arr, heapify heapPyMaxIsBetter arr) ∧
    (heapify heapPyMinIsBetter arr).Perm arr ∧
    IsHeapProp heapPyMinIsBetter (heapify heapPyMinIsBetter arr) ∧
    heapifyRun heapPyMinIsBetter arr =
      (heapify heapPyMinIsBetter arr, heapify heapPyMinIsBetter arr) := by
  have hmax := heapify_spec heapPyMaxIsBetter maxIsBetter_asymm maxIsBetter_trans arr
  have hmin := heapify_spec heapPyMinIsBetter minIsBetter_asymm minIsBetter_trans arr
  exact ⟨hmax.1, hmax.2, rfl, hmin.1, hmin.2, rfl⟩

/-! ## Doubly linked list lemmas (towards C5, C6, C7, C10) -/

lemma mget_madd_self (m : List (Nat × DNode)) (k : Nat) (nd : DNode) :
    mget (madd m k nd) k = some nd := by
  simp [madd, mget]

lemma mget_madd_ne (m : List (Nat × DNode)) (k j : Nat) (nd : DNode) (h : ¬ k = j) :
    mget (madd m k nd) j = mget m j := by
  simp [madd, mget, h]

lemma mget_mupd (m : List (Nat × DNode)) (k : Nat) (f : DNode → DNode) (j : Nat) :
    mget (mupd m k f) j = if k = j then (mget m j).map f else mget m j := by
  induction m with
  | nil => simp [mupd, mget]
  | cons p rest ih =>
    obtain ⟨k0, nd⟩ := p
    by_cases hk0 : k0 = k
    · subst hk0
      rw [mupd, if_pos rfl]
      by_cases hj : k0 = j
      · rw [mget, if_pos hj, mget, if_pos hj, if_pos hj]
        rfl
      · rw [mget, if_neg hj, mget, if_neg hj, ih]
        simp [hj]
    · rw [mupd, if_neg hk0]
      by_cases hj : k0 = j
      · have hkj : ¬ k = j := fun hh => hk0 (hj.trans hh.symm)
        rw [mget, if_pos hj, mget, if_pos hj, if_neg hkj]
      · rw [mget, if_neg hj, mget, if_neg hj, ih]

lemma mget_mdel_self (m : List (Nat × DNode)) (k : Nat) :
    mget (mdel m k) k = none := by
  induction m with
  | nil => simp [mdel, mget]
  | cons p rest ih =>
    obtain ⟨k0, nd⟩ := p
    by_cases hk0 : k0 = k
    · rw [mdel, if_pos hk0]; exact ih
    · rw [mdel, if_neg hk0, mget, if_neg hk0]; exact ih

lemma mget_mdel_ne (m : List (Nat × DNode)) (k j : Nat) (h : ¬ j = k) :
    mget (mdel m k) j = mget m j := by
  induction m with
  | nil => simp [mdel, mget]
  | cons p rest ih =>
    obtain ⟨k0, nd⟩ := p
    by_cases hk0 : k0 = k
    · have hk0j : ¬ k0 = j := fun hh => h (hh.symm.trans hk0)
      rw [mdel, if_pos hk0, mget, if_neg hk0j]
      exact ih
    · rw [mdel, if_neg hk0]
      by_cases hj : k0 = j
      · rw [mget, if_pos hj, mget, if_pos hj]
      · rw [mget, if_neg hj, mget, if_neg hj]
        exact ih

lemma keys_mupd (m : List (Nat × DNode)) (k : Nat) (f : DNode → DNode) :
    (mupd m k f).map Prod.fst = m.map Prod.fst := by
  induction m with
  | nil => rfl
  | cons p rest ih =>
    obtain ⟨k0, nd⟩ := p
    by_cases hk0 : k0 = k
    · rw [mupd, if_pos hk0, List.map_cons, List.map_cons, ih]
    · rw [mupd, if_neg hk0, List.map_cons, List.map_cons, ih]

lemma mem_mdel (m : List (Nat × DNode)) (k : Nat) (p : Nat × DNode)
    (hp : p ∈ mdel m k) : p ∈ m := by
  induction m with
  | nil => simp [mdel] at hp
  | cons q rest ih =>
    obtain ⟨k0, nd⟩ := q
    by_cases hk0 : k0 = k
    · rw [mdel, if_pos hk0] at hp
      exact List.mem_cons_of_mem _ (ih hp)
    · rw [mdel, if_neg hk0] at hp
      rcases List.mem_cons.mp hp with hp1 | hp2
      · exact hp1 ▸ List.mem_cons_self _ _
      · exact List.mem_cons_of_mem _ (ih hp2)

lemma keys_mdel_sublist (m : List (Nat × DNode)) (k : Nat) :
    ((mdel m k).map Prod.fst).Sublist (m.map Prod.fst) := by
  induction m with
  | nil => simp [mdel]
  | cons q rest ih =>
    obtain ⟨k0, nd⟩ := q
    by_cases hk0 : k0 = k
    · rw [mdel, if_pos hk0, List.map_cons]
      exact ih.trans (List.sublist_cons_self _ _)
    · rw [mdel, if_neg hk0, List.map_cons, List.map_cons]
      exact ih.cons₂ k0

lemma mget_of_mem_nodup (m : List (Nat × DNode)) (p : Nat × DNode)
    (hnd : (m.map Prod.fst).Nodup) (hp : p ∈ m) :
    mget m p.1 = some p.2 := by
  induction m with
  | nil => simp at hp
  | cons q rest ih =>
    rcases List.mem_cons.mp hp with hp1 | hp2
    · rw [hp1]
      obtain ⟨k0, nd⟩ := p
      simp [mget]
    · rw [List.map_cons] at hnd
      have h1 := (List.nodup_cons.mp hnd).1
      have h2 := (List.nodup_cons.mp hnd).2
      have hq : ¬ q.1 = p.1 := by
        intro hh
        exact h1 (hh ▸ List.mem_map_of_mem Prod.fst hp2)
      obtain ⟨k0, nd⟩ := q
      simp only [mget, if_neg hq]
      exact ih h2 hp2

lemma symLinked_of_chain (s : DLL) (ids : List Nat) (hch : DllChain s ids) :
    SymLinked s := by
  refine ⟨?_, ?_, ?_⟩
  · intro p hp b hnext
    have hk : p.1 ∈ ids := hch.keys p hp
    obtain ⟨k, hklt, hkeq⟩ := List.mem_iff_getElem.mp hk
    have hmg : mget s.nodes p.1 = some p.2 := mget_of_mem_nodup _ _ hch.keys_nodup hp
    obtain ⟨nd, hnd, hndnext, _⟩ := hch.link k hklt
    rw [hkeq] at hnd
    rw [hmg] at hnd
    have hnd2 : p.2 = nd := by
      injection hnd with hh
    rw [← hnd2] at hndnext
    rw [hnext] at hndnext
    have hk1 : k + 1 < ids.length := by
      by_contra hcon
      rw [List.getElem?_eq_none (by omega)] at hndnext
      exact Option.noConfusion hndnext
    have hb : b = ids[k + 1] := by
      rw [List.getElem?_eq_getElem hk1] at hndnext
      injection hndnext with hh
    obtain ⟨nb, hnb, _, hnbprev⟩ := hch.link (k + 1) hk1
    refine ⟨nb, by rw [hb]; exact hnb, ?_⟩
    rw [hnbprev, if_neg (by omega)]
    simp only [Nat.add_sub_cancel]
    rw [List.getElem?_eq_getElem hklt, hkeq]
  · intro h hh
    have h0 : ids[0]? = some h := by
      rw [← List.head?_eq_getElem?, ← hch.head_eq, hh]
    have h0lt : 0 < ids.length := by
      by_contra hcon
      rw [List.getElem?_eq_none (by omega)] at h0
      exact Option.noConfusion h0
    obtain ⟨nd, hnd, _, hprev⟩ := hch.link 0 h0lt
    refine ⟨nd, ?_, by rw [hprev, if_pos rfl]⟩
    have hhid : ids[0] = h := by
      rw [List.getElem?_eq_getElem h0lt] at h0
      injection h0 with hh
    rwa [hhid] at hnd
  · intro t ht
    have hL : ids[ids.length - 1]? = some t := by
      rw [← List.getLast?_eq_getElem?, ← hch.tail_eq, ht]
    have h0lt : ids.length - 1 < ids.length := by
      by_contra hcon
      rw [List.getElem?_eq_none (by omega)] at hL
      exact Option.noConfusion hL
    obtain ⟨nd, hnd, hnext, _⟩ := hch.link (ids.length - 1) h0lt
    refine ⟨nd, ?_, ?_⟩
    · have htid : ids[ids.length - 1] = t := by
        rw [List.getElem?_eq_getElem h0lt] at hL
        injection hL with hh
      rwa [htid] at hnd
    · rw [hnext, List.getElem?_eq_none (by omega)]

lemma walkNext_none (s : DLL) (j : Nat) : walkNext s none j = none := by
  cases j <;> rfl

lemma walkNext_zero (s : DLL) (cur : Option Nat) : walkNext s cur 0 = cur := by
  cases cur <;> rfl

lemma walkPrev_zero (s : DLL) (cur : Option Nat) : walkPrev s cur 0 = cur := by
  cases cur <;> rfl

lemma walkPrev_none (s : DLL) (j : Nat) : walkPrev s none j = none := by
  cases j <;> rfl

lemma walkNext_chain (s : DLL) (ids : List Nat) (hch : DllChain s ids) :
    ∀ (j k : Nat), walkNext s ids[k]? j = ids[k + j]? := by
  intro j
  induction j with
  | zero => intro k; rw [walkNext_zero, Nat.add_zero]
  | succ j ih =>
    intro k
    cases hk : ids[k]? with
    | none =>
      have hlen : ids.length ≤ k := by
        by_contra hcon
        rw [List.getElem?_eq_getElem (by omega)] at hk
        exact Option.noConfusion hk
      rw [walkNext_none, List.getElem?_eq_none (by omega)]
    | some id =>
      have hklt : k < ids.length := by
        by_contra hcon
        rw [List.getElem?_eq_none (by omega)] at hk
        exact Option.noConfusion hk
      rw [List.getElem?_eq_getElem hklt] at hk
      injection hk with hk
      obtain ⟨nd, hnd, hnext, _⟩ := hch.link k hklt
      have hstep : walkNext s (some id) (j + 1) =
          walkNext s ((mget s.nodes id).bind DNode.next) j := rfl
      rw [hstep, ← hk, hnd]
      show walkNext s (DNode.next nd) j = ids[k + (j + 1)]?
      rw [hnext, ih (k + 1)]
      congr 1
      omega

lemma walkPrev_chain (s : DLL) (ids : List Nat) (hch : DllChain s ids) :
    ∀ (j k : Nat), walkPrev s ids[k]? j =
      if k < ids.length ∧ j ≤ k then ids[k - j]? else none := by
  intro j
  induction j with
  | zero =>
    intro k
    by_cases hk : k < ids.length
    · rw [if_pos ⟨hk, Nat.zero_le _⟩, Nat.sub_zero, walkPrev_zero]
    · rw [if_neg (fun hh => hk hh.1), List.getElem?_eq_none (by omega), walkPrev_zero]
  | succ j ih =>
    intro k
    cases hk : ids[k]? with
    | none =>
      have hlen : ids.length ≤ k := by
        by_contra hcon
        rw [List.getElem?_eq_getElem (by omega)] at hk
        exact Option.noConfusion hk
      rw [walkPrev_none, if_neg (fun hh => by omega)]
    | some id =>
      have hklt : k < ids.length := by
        by_contra hcon
        rw [List.getElem?_eq_none (by omega)] at hk
        exact Option.noConfusion hk
      rw [List.getElem?_eq_getElem hklt] at hk
      injection hk with hk
      obtain ⟨nd, hnd, _, hprev⟩ := hch.link k hklt
      have hstep : walkPrev s (some id) (j + 1) =
          walkPrev s ((mget s.nodes id).bind DNode.prev) j := rfl
      rw [hstep, ← hk, hnd]
      show walkPrev s (DNode.prev nd) j = _
      rw [hprev]
      by_cases hk0 : k = 0
      · rw [if_pos hk0, walkPrev_none, if_neg (fun hh => by omega)]
      · rw [if_neg hk0, ih (k - 1)]
        by_cases hcond : k - 1 < ids.length ∧ j ≤ k - 1
        · rw [if_pos hcond, if_pos (by omega)]
          congr 1
          omega
        · rw [if_neg hcond, if_neg (fun hh => hcond ⟨by omega, by omega⟩)]

lemma dllTraverseLoop_chain (s : DLL) (ids : List Nat) (hch : DllChain s ids) :
    ∀ (fuel k : Nat), ids.length - k ≤ fuel →
      dllTraverseLoop s fuel ids[k]? = dllDataList s (ids.drop k) := by
  intro fuel
  induction fuel with
  | zero =>
    intro k hk
    have hlen : ids.length ≤ k := by omega
    rw [List.getElem?_eq_none hlen, List.drop_eq_nil_of_le hlen]
    rfl
  | succ fuel ih =>
    intro k hkf
    cases hk : ids[k]? with
    | none =>
      have hlen : ids.length ≤ k := by
        by_contra hcon
        rw [List.getElem?_eq_getElem (by omega)] at hk
        exact Option.noConfusion hk
      rw [List.drop_eq_nil_of_le hlen]
      rfl
    | some id =>
      have hklt : k < ids.length := by
        by_contra hcon
        rw [List.getElem?_eq_none (by omega)] at hk
        exact Option.noConfusion hk
      rw [List.getElem?_eq_getElem hklt] at hk
      injection hk with hk
      obtain ⟨nd, hnd, hnext, _⟩ := hch.link k hklt
      have hstep : dllTraverseLoop s (fuel + 1) (some id) =
          nd.data :: dllTraverseLoop s fuel nd.next := by
        show (match mget s.nodes id with
          | none => []
          | some nd => nd.data :: dllTraverseLoop s fuel nd.next) = _
        rw [← hk, hnd]
      rw [hstep, List.drop_eq_getElem_cons hklt]
      simp only [dllDataList, List.map_cons]
      rw [hnd, hnext, ih (k + 1) (by omega)]
      simp [dllDataList]

lemma dllTraverse_chain (s : DLL) (ids : List Nat) (hch : DllChain s ids) :
    dllTraverse s = dllDataList s ids := by
  unfold dllTraverse
  rw [hch.head_eq, List.head?_eq_getElem?, hch.len_eq]
  have := dllTraverseLoop_chain s ids hch ids.length 0 (by omega)
  rw [this, List.drop_zero]

lemma nextId_not_mem (s : DLL) (ids : List Nat) (hch : DllChain s ids) :
    s.nextId ∉ ids := fun h => absurd (hch.fresh _ h) (lt_irrefl _)

lemma getElem?_append_single (ids : List Nat) (a : Nat) (k : Nat) :
    (ids ++ [a])[k]? =
      if k < ids.length then ids[k]? else if k = ids.length then some a else none := by
  by_cases hk : k < ids.length
  · rw [if_pos hk, List.getElem?_append_left hk]
  · rw [if_neg hk]
    by_cases hk2 : k = ids.length
    · rw [if_pos hk2, hk2]
      simp
    · rw [if_neg hk2, List.getElem?_eq_none (by simp; omega)]

lemma keys_mem_of_mem_mupd (m : List (Nat × DNode)) (k : Nat) (f : DNode → DNode)
    (p : Nat × DNode) (hp : p ∈ mupd m k f) : p.1 ∈ m.map Prod.fst := by
  have := List.mem_map_of_mem Prod.fst hp
  rwa [keys_mupd] at this

lemma chain_empty : DllChain dllEmpty [] := by
  refine ⟨List.nodup_nil, rfl, rfl, rfl, ?_, ?_, List.nodup_nil, ?_⟩
  · intro id h; simp at h
  · intro p hp; simp [dllEmpty] at hp
  · intro k hk; simp at hk

lemma chain_append (s : DLL) (ids : List Nat) (v : Int) (hch : DllChain s ids) :
    DllChain (dllAppend s v) (ids ++ [s.nextId]) := by
  cases hids : ids with
  | nil =>
    have hnodes : s.nodes = [] := by
      cases hmm : s.nodes with
      | nil => rfl
      | cons p rest =>
        have := hch.keys p (by rw [hmm]; exact List.mem_cons_self _ _)
        rw [hids] at this
        simp at this
    have hhead : s.head = none := by rw [hch.head_eq, hids]; rfl
    have happ : dllAppend s v =
        ⟨madd s.nodes s.nextId ⟨v, none, none⟩, some s.nextId, some s.nextId,
          s.length + 1, s.nextId + 1⟩ := by
      unfold dllAppend
      rw [hhead]
    rw [happ]
    refine ⟨by simp, by simp, by simp, ?_, ?_, ?_, ?_, ?_⟩
    · have := hch.len_eq; rw [hids] at this; simp [this]
    · intro id h
      simp at h
      show id < s.nextId + 1
      omega
    · intro p hp
      simp only [madd] at hp
      rcases List.mem_cons.mp hp with h1 | h2
      · rw [h1]; simp
      · have := hch.keys p h2
        rw [hids] at this
        simp at this
    · simp only [madd, List.map_cons]
      rw [hnodes]
      simp
    · intro k hk
      simp only [List.nil_append, List.length_cons, List.length_nil] at hk
      have hk0 : k = 0 := by omega
      subst hk0
      refine ⟨⟨v, none, none⟩, ?_, ?_, ?_⟩
      · simp only [List.nil_append]
        show mget (madd s.nodes s.nextId ⟨v, none, none⟩) s.nextId = _
        rw [mget_madd_self]
      · simp
      · simp
  | cons h0 t0 =>
    rw [← hids]
    have hne : ids ≠ [] := by rw [hids]; simp
    have hhead : s.head = some (ids.head hne) := by
      rw [hch.head_eq, List.head?_eq_head hne]
    have htail : s.tail = some (ids.getLast hne) := by
      rw [hch.tail_eq, List.getLast?_eq_getLast ids hne]
    set tl := ids.getLast hne with htl
    set nid := s.nextId with hnid
    have htl_mem : tl ∈ ids := List.getLast_mem hne
    have htl_lt : tl < nid := hch.fresh tl htl_mem
    have htl_ne : ¬ nid = tl := by omega
    have htl_idx : ids[ids.length - 1]? = some tl := by
      rw [htl, ← List.getLast?_eq_getElem?, List.getLast?_eq_getLast ids hne]
    have hlenpos : 0 < ids.length := List.length_pos.mpr hne
    have happ : dllAppend s v =
        ⟨mupd (madd s.nodes nid ⟨v, none, some tl⟩) tl
            (fun nd => { nd with next := some nid }),
          s.head, some nid, s.length + 1, nid + 1⟩ := by
      unfold dllAppend
      rw [hhead, htail]
    rw [happ]
    have hmget : ∀ j, mget (mupd (madd s.nodes nid ⟨v, none, some tl⟩) tl
        (fun nd => { nd with next := some nid })) j =
        if tl = j then (mget s.nodes j).map (fun nd => { nd with next := some nid })
        else if nid = j then some ⟨v, none, some tl⟩ else mget s.nodes j := by
      intro j
      rw [mget_mupd]
      by_cases hj : tl = j
      · rw [if_pos hj, if_pos hj, mget_madd_ne _ _ _ _ (by omega)]
      · rw [if_neg hj, if_neg hj]
        by_cases hj2 : nid = j
        · rw [if_pos hj2, ← hj2, mget_madd_self]
        · rw [if_neg hj2, mget_madd_ne _ _ _ _ hj2]
    refine ⟨?_, ?_, ?_, ?_, ?_, ?_, ?_, ?_⟩
    · rw [List.nodup_append]
      exact ⟨hch.nodup, List.nodup_singleton _,
        fun a ha hb => by simp at hb; rw [hb] at ha; exact nextId_not_mem s ids hch ha⟩
    · show s.head = (ids ++ [nid]).head?
      rw [hhead, List.head?_append_of_ne_nil _ hne, List.head?_eq_head hne]
    · show some nid = (ids ++ [nid]).getLast?
      simp
    · show s.length + 1 = (ids ++ [nid]).length
      rw [hch.len_eq]; simp
    · intro id hid
      rcases List.mem_append.mp hid with h1 | h2
      · have := hch.fresh id h1
        show id < nid + 1
        omega
      · simp at h2
        show id < nid + 1
        omega
    · intro p hp
      have hin := keys_mem_of_mem_mupd _ _ _ _ hp
      simp only [madd, List.map_cons, List.mem_cons] at hin
      rcases hin with h1 | h2
      · rw [h1]; simp
      · obtain ⟨q, hq, hqe⟩ := List.mem_map.mp h2
        rw [← hqe]
        exact List.mem_append_left _ (hch.keys q hq)
    · rw [keys_mupd]
      simp only [madd, List.map_cons]
      rw [List.nodup_cons]
      refine ⟨?_, hch.keys_nodup⟩
      intro hcon
      obtain ⟨q, hq, hqe⟩ := List.mem_map.mp hcon
      have := hch.keys q hq
      rw [hqe] at this
      exact nextId_not_mem s ids hch this
    · intro k hk
      simp only [List.length_append, List.length_cons, List.length_nil] at hk
      by_cases hklast : k < ids.length - 1
      · -- an interior node of the old chain, untouched
        obtain ⟨nd, hnd, hnext, hprev⟩ := hch.link k (by omega)
        have hkid : (ids ++ [nid])[k] = ids[k] := by
          rw [List.getElem_append_left (by omega)]
        have hne_tl : ¬ tl = ids[k] := by
          intro hcon
          have h1 : ids[ids.length - 1]? = some ids[k] := by rw [htl_idx, hcon]
          rw [List.getElem?_eq_getElem (by omega)] at h1
          injection h1 with h1
          have := List.Nodup.getElem_inj_iff hch.nodup |>.mp h1
          omega
        have hne_nid : ¬ nid = ids[k] := by
          intro hcon
          have : ids[k] ∈ ids := List.getElem_mem _
          rw [← hcon] at this
          exact nextId_not_mem s ids hch this
        refine ⟨nd, ?_, ?_, ?_⟩
        · rw [hkid, hmget, if_neg hne_tl, if_neg hne_nid]
          exact hnd
        · rw [hnext, getElem?_append_single, if_pos (by omega)]
        · rw [hprev]
          by_cases hk0 : k = 0
          · rw [if_pos hk0, if_pos hk0]
          · rw [if_neg hk0, if_neg hk0, getElem?_append_single, if_pos (by omega)]
      · by_cases hkl : k = ids.length - 1
        · -- the old last node: its next pointer is redirected to the new node
          obtain ⟨nd, hnd, hnext, hprev⟩ := hch.link k (by omega)
          have hkid : (ids ++ [nid])[k] = ids[k] := by
            rw [List.getElem_append_left (by omega)]
          have htleq : tl = ids[k] := by
            have h1 : ids[k]? = some tl := by rw [hkl]; exact htl_idx
            rw [List.getElem?_eq_getElem (by omega)] at h1
            injection h1 with hh
            exact hh.symm
          refine ⟨{ nd with next := some nid }, ?_, ?_, ?_⟩
          · rw [hkid, hmget, if_pos htleq, hnd]
            rfl
          · show some nid = (ids ++ [nid])[k + 1]?
            rw [getElem?_append_single, if_neg (by omega), if_pos (by omega)]
          · show nd.prev = _
            rw [hprev]
            by_cases hk0 : k = 0
            · rw [if_pos hk0, if_pos hk0]
            · rw [if_neg hk0, if_neg hk0, getElem?_append_single, if_pos (by omega)]
        · -- the appended node
          have hkeq : k = ids.length := by omega
          have hkid : (ids ++ [nid])[k] = nid := by
            rw [List.getElem_append_right (by omega)]
            simp [hkeq]
          refine ⟨⟨v, none, some tl⟩, ?_, ?_, ?_⟩
          · rw [hkid, hmget, if_neg (by omega : ¬ tl = nid), if_pos rfl]
          · show none = (ids ++ [nid])[k + 1]?
            rw [getElem?_append_single, if_neg (by omega), if_neg (by omega)]
          · show some tl = _
            rw [if_neg (by omega), getElem?_append_single, if_pos (by omega)]
            rw [hkeq]
            exact htl_idx.symm

lemma getLast?_cons_of_ne_nil (a : Nat) (l : List Nat) (h : l ≠ []) :
    (a :: l).getLast? = l.getLast? := by
  cases l with
  | nil => exact absurd rfl h
  | cons b t => simp [List.getLast?_cons_cons]

lemma chain_prepend (s : DLL) (ids : List Nat) (v : Int) (hch : DllChain s ids) :
    DllChain (dllPrepend s v) (s.nextId :: ids) := by
  cases hids : ids with
  | nil =>
    have hnodes : s.nodes = [] := by
      cases hmm : s.nodes with
      | nil => rfl
      | cons p rest =>
        have := hch.keys p (by rw [hmm]; exact List.mem_cons_self _ _)
        rw [hids] at this
        simp at this
    have hhead : s.head = none := by rw [hch.head_eq, hids]; rfl
    have happ : dllPrepend s v =
        ⟨madd s.nodes s.nextId ⟨v, none, none⟩, some s.nextId, some s.nextId,
          s.length + 1, s.nextId + 1⟩ := by
      unfold dllPrepend
      rw [hhead]
    rw [happ]
    refine ⟨by simp, by simp, by simp, ?_, ?_, ?_, ?_, ?_⟩
    · have := hch.len_eq; rw [hids] at this; simp [this]
    · intro id h
      simp at h
      show id < s.nextId + 1
      omega
    · intro p hp
      simp only [madd] at hp
      rcases List.mem_cons.mp hp with h1 | h2
      · rw [h1]; simp
      · have := hch.keys p h2
        rw [hids] at this
        simp at this
    · simp only [madd, List.map_cons]
      rw [hnodes]
      simp
    · intro k hk
      simp only [List.length_cons, List.length_nil] at hk
      have hk0 : k = 0 := by omega
      subst hk0
      refine ⟨⟨v, none, none⟩, ?_, ?_, ?_⟩
      · show mget (madd s.nodes s.nextId ⟨v, none, none⟩) s.nextId = _
        rw [mget_madd_self]
      · simp
      · simp
  | cons h0 t0 =>
    rw [← hids]
    have hne : ids ≠ [] := by rw [hids]; simp
    have hhead : s.head = some (ids.head hne) := by
      rw [hch.head_eq, List.head?_eq_head hne]
    set hd := ids.head hne with hhd
    set nid := s.nextId with hnid
    have hhd_mem : hd ∈ ids := List.head_mem hne
    have hhd_lt : hd < nid := hch.fresh hd hhd_mem
    have hhd_ne : ¬ nid = hd := by omega
    have hhd_idx : ids[0]? = some hd := by
      rw [← List.head?_eq_getElem?, List.head?_eq_head hne]
    have hlenpos : 0 < ids.length := List.length_pos.mpr hne
    have happ : dllPrepend s v =
        ⟨mupd (madd s.nodes nid ⟨v, some hd, none⟩) hd
            (fun nd => { nd with prev := some nid }),
          some nid, s.tail, s.length + 1, nid + 1⟩ := by
      unfold dllPrepend
      rw [hhead]
    rw [happ]
    have hmget : ∀ j, mget (mupd (madd s.nodes nid ⟨v, some hd, none⟩) hd
        (fun nd => { nd with prev := some nid })) j =
        if hd = j then (mget s.nodes j).map (fun nd => { nd with prev := some nid })
        else if nid = j then some ⟨v, some hd, none⟩ else mget s.nodes j := by
      intro j
      rw [mget_mupd]
      by_cases hj : hd = j
      · rw [if_pos hj, if_pos hj, mget_madd_ne _ _ _ _ (by omega)]
      · rw [if_neg hj, if_neg hj]
        by_cases hj2 : nid = j
        · rw [if_pos hj2, ← hj2, mget_madd_self]
        · rw [if_neg hj2, mget_madd_ne _ _ _ _ hj2]
    have hgetzero : ids[0] = hd := by
      rw [List.getElem?_eq_getElem hlenpos] at hhd_idx
      injection hhd_idx with hh
    refine ⟨?_, ?_, ?_, ?_, ?_, ?_, ?_, ?_⟩
    · rw [List.nodup_cons]
      exact ⟨nextId_not_mem s ids hch, hch.nodup⟩
    · rfl
    · show s.tail = (nid :: ids).getLast?
      rw [hch.tail_eq, getLast?_cons_of_ne_nil _ _ hne]
    · show s.length + 1 = (nid :: ids).length
      rw [hch.len_eq]; simp
    · intro id hid
      rcases List.mem_cons.mp hid with h1 | h2
      · show id < nid + 1; omega
      · have := hch.fresh id h2
        show id < nid + 1
        omega
    · intro p hp
      have hin := keys_mem_of_mem_mupd _ _ _ _ hp
      simp only [madd, List.map_cons, List.mem_cons] at hin
      rcases hin with h1 | h2
      · rw [h1]; exact List.mem_cons_self _ _
      · obtain ⟨q, hq, hqe⟩ := List.mem_map.mp h2
        rw [← hqe]
        exact List.mem_cons_of_mem _ (hch.keys q hq)
    · rw [keys_mupd]
      simp only [madd, List.map_cons]
      rw [List.nodup_cons]
      refine ⟨?_, hch.keys_nodup⟩
      intro hcon
      obtain ⟨q, hq, hqe⟩ := List.mem_map.mp hcon
      have := hch.keys q hq
      rw [hqe] at this
      exact nextId_not_mem s ids hch this
    · intro k hk
      simp only [List.length_cons] at hk
      match k, hk with
      | 0, _ =>
        refine ⟨⟨v, some hd, none⟩, ?_, ?_, ?_⟩
        · show mget _ nid = _
          rw [hmget, if_neg (by omega : ¬ hd = nid), if_pos rfl]
        · show some hd = (nid :: ids)[1]?
          rw [List.getElem?_cons_succ]
          exact hhd_idx.symm
        · rfl
      | k + 1, hk =>
        obtain ⟨nd, hnd, hnext, hprev⟩ := hch.link k (by omega)
        have hkid : (nid :: ids)[k + 1] = ids[k] := by
          simp
        by_cases hk0 : k = 0
        · -- the old head node: its prev pointer is redirected to the new node
          subst hk0
          refine ⟨{ nd with prev := some nid }, ?_, ?_, ?_⟩
          · rw [hkid, hmget, if_pos hgetzero.symm, hnd]
            rfl
          · show ({ nd with prev := some nid } : DNode).next = (nid :: ids)[0 + 1 + 1]?
            rw [List.getElem?_cons_succ]
            exact hnext
          · show ({ nd with prev := some nid } : DNode).prev = _
            rw [if_neg (by omega)]
            simp
        · -- an interior node, untouched
          have hne_hd : ¬ hd = ids[k] := by
            intro hcon
            rw [← hgetzero] at hcon
            have := List.Nodup.getElem_inj_iff hch.nodup |>.mp hcon
            omega
          have hne_nid : ¬ nid = ids[k] := by
            intro hcon
            have : ids[k] ∈ ids := List.getElem_mem _
            rw [← hcon] at this
            exact nextId_not_mem s ids hch this
          refine ⟨nd, ?_, ?_, ?_⟩
          · rw [hkid, hmget, if_neg hne_hd, if_neg hne_nid]
            exact hnd
          · show nd.next = (nid :: ids)[k + 1 + 1]?
            rw [List.getElem?_cons_succ]
            exact hnext
          · show nd.prev = _
            rw [if_neg (by omega), hprev, if_neg hk0]
            have hx : k - 1 + 1 = k := by omega
            show ids[k - 1]? = (nid :: ids)[k + 1 - 1]?
            rw [show k + 1 - 1 = (k - 1) + 1 by omega, List.getElem?_cons_succ]

lemma mem_mdel_ne (m : List (Nat × DNode)) (k : Nat) (p : Nat × DNode)
    (hp : p ∈ mdel m k) : ¬ p.1 = k := by
  induction m with
  | nil => simp [mdel] at hp
  | cons q rest ih =>
    obtain ⟨k0, nd⟩ := q
    by_cases hk0 : k0 = k
    · rw [mdel, if_pos hk0] at hp
      exact ih hp
    · rw [mdel, if_neg hk0] at hp
      rcases List.mem_cons.mp hp with h1 | h2
      · rw [h1]; exact hk0
      · exact ih h2

lemma chain_popFront_nil (s : DLL) (hch : DllChain s []) : dllPopFront s = none := by
  have hhead : s.head = none := by rw [hch.head_eq]; rfl
  unfold dllPopFront
  rw [hhead]

lemma chain_popFront_cons (s : DLL) (h : Nat) (t : List Nat)
    (hch : DllChain s (h :: t)) :
    ∃ nd s2, mget s.nodes h = some nd ∧ dllPopFront s = some (nd.data, s2) ∧
      DllChain s2 t := by
  have hhead : s.head = some h := by rw [hch.head_eq]; rfl
  obtain ⟨nd, hnd, hnext, hprev⟩ := hch.link 0 (by simp)
  simp only [List.getElem_cons_zero] at hnd
  have hnextval : nd.next = t[0]? := by
    rw [hnext]
    cases t <;> simp
  have hnotmem : h ∉ t := (List.nodup_cons.mp hch.nodup).1
  cases ht : t with
  | nil =>
    subst ht
    have hn : nd.next = none := by rw [hnextval]; rfl
    have hpop : dllPopFront s = some (nd.data,
        ⟨mdel s.nodes h, none, none, s.length - 1, s.nextId⟩) := by
      simp only [dllPopFront, hhead, hnd, hn]
    refine ⟨nd, _, hnd, hpop, ?_⟩
    refine ⟨List.nodup_nil, rfl, rfl, ?_, ?_, ?_, ?_, ?_⟩
    · have := hch.len_eq; simp at this; simp [this]
    · intro id hid; simp at hid
    · intro p hp
      have h1 := mem_mdel_ne _ _ _ hp
      have h2 := hch.keys p (mem_mdel _ _ _ hp)
      simp at h2
      exact absurd h2 h1
    · exact List.Nodup.sublist (keys_mdel_sublist _ _) hch.keys_nodup
    · intro k hk; simp at hk
  | cons h2 t2 =>
    rw [← ht]
    have htne : t ≠ [] := by rw [ht]; simp
    have hn : nd.next = some h2 := by
      rw [hnextval, ht]
      simp
    have hpop : dllPopFront s = some (nd.data,
        ⟨mdel (mupd s.nodes h2 (fun x => { x with prev := none })) h,
          some h2, s.tail, s.length - 1, s.nextId⟩) := by
      simp only [dllPopFront, hhead, hnd, hn]
    have ht0 : t[0]? = some h2 := by rw [ht]; simp
    have hh2t : h2 ∈ t := by rw [ht]; exact List.mem_cons_self _ _
    have hmg2 : ∀ j, mget (mdel (mupd s.nodes h2
        (fun x => { x with prev := none })) h) j =
        if j = h then none
        else if h2 = j then (mget s.nodes j).map (fun x => { x with prev := none })
        else mget s.nodes j := by
      intro j
      by_cases hjh : j = h
      · rw [if_pos hjh, hjh, mget_mdel_self]
      · rw [if_neg hjh, mget_mdel_ne _ _ _ hjh, mget_mupd]
    refine ⟨nd, _, hnd, hpop, ?_⟩
    refine ⟨(List.nodup_cons.mp hch.nodup).2, by rw [ht]; simp, ?_, ?_, ?_, ?_, ?_, ?_⟩
    · show s.tail = t.getLast?
      rw [hch.tail_eq, getLast?_cons_of_ne_nil _ _ htne]
    · show s.length - 1 = t.length
      have := hch.len_eq; simp at this; omega
    · intro id hid
      exact hch.fresh id (List.mem_cons_of_mem _ hid)
    · intro p hp
      have h1 := mem_mdel_ne _ _ _ hp
      have h2 := keys_mem_of_mem_mupd _ _ _ _ (mem_mdel _ _ _ hp)
      obtain ⟨q, hq, hqe⟩ := List.mem_map.mp h2
      have h3 := hch.keys q hq
      rw [hqe] at h3
      rcases List.mem_cons.mp h3 with h4 | h5
      · exact absurd h4 h1
      · exact h5
    · exact List.Nodup.sublist
        ((keys_mdel_sublist _ _).trans (by rw [keys_mupd])) hch.keys_nodup
    · intro k hk
      obtain ⟨nd2, hnd2, hnext2, hprev2⟩ := hch.link (k + 1) (by simp; omega)
      have hk1 : k + 1 < (h :: t).length := by simp; omega
      have hkid : (h :: t)[k + 1] = t[k] := by simp
      rw [hkid] at hnd2
      have htk_ne_h : ¬ t[k] = h := by
        intro hcon
        exact hnotmem (hcon ▸ List.getElem_mem hk)
      by_cases hk0 : k = 0
      · -- the new head node: its prev pointer is cleared
        subst hk0
        have ht0e : t[0] = h2 := by
          rw [List.getElem?_eq_getElem hk] at ht0
          injection ht0 with hh
        refine ⟨{ nd2 with prev := none }, ?_, ?_, ?_⟩
        · rw [hmg2, if_neg htk_ne_h, if_pos ht0e.symm, hnd2]
          rfl
        · show ({ nd2 with prev := none } : DNode).next = t[0 + 1]?
          have : (h :: t)[0 + 1 + 1]? = t[0 + 1]? := by simp
          rw [← this, ← hnext2]
        · rw [if_pos rfl]
      · -- an interior node, untouched
        have hne_h2 : ¬ h2 = t[k] := by
          intro hcon
          have ht0e : t[0] = h2 := by
            rw [List.getElem?_eq_getElem (by omega : 0 < t.length)] at ht0
            injection ht0 with hh
          rw [← ht0e] at hcon
          have := List.Nodup.getElem_inj_iff (List.nodup_cons.mp hch.nodup).2 |>.mp hcon
          omega
        refine ⟨nd2, ?_, ?_, ?_⟩
        · rw [hmg2, if_neg htk_ne_h, if_neg hne_h2]
          exact hnd2
        · show nd2.next = t[k + 1]?
          have : (h :: t)[k + 1 + 1]? = t[k + 1]? := by simp
          rw [← this, ← hnext2]
        · rw [hprev2, if_neg (by omega), if_neg hk0]
          show (h :: t)[k + 1 - 1]? = t[k - 1]?
          rw [show k + 1 - 1 = (k - 1) + 1 by omega, List.getElem?_cons_succ]

lemma insertIdx_perm (l : List Nat) (a : Nat) :
    ∀ (n : Nat), n ≤ l.length → (l.insertIdx n a).Perm (a :: l) := by
  induction l with
  | nil =>
    intro n hn
    simp at hn
    subst hn
    simp
  | cons hd tl ih =>
    intro n hn
    cases n with
    | zero => simp
    | succ n =>
      rw [List.insertIdx_succ_cons]
      exact ((ih n (by simpa using hn)).cons hd).trans (List.Perm.swap a hd tl)

lemma getElem?_insertIdx (l : List Nat) (a : Nat) (n j : Nat) (hn : n ≤ l.length) :
    (l.insertIdx n a)[j]? =
      if j < n then l[j]? else if j = n then some a else l[j - 1]? := by
  have hlen2 : (l.insertIdx n a).length = l.length + 1 := List.length_insertIdx n l hn
  by_cases hj : j < n
  · rw [if_pos hj, List.getElem?_eq_getElem (by omega),
      List.getElem?_eq_getElem (by omega : j < l.length),
      List.getElem_insertIdx_of_lt l a n j hj (by omega)]
  · rw [if_neg hj]
    by_cases hj2 : j = n
    · rw [if_pos hj2, hj2, List.getElem?_eq_getElem (by omega),
        List.getElem_insertIdx_self l a n hn]
    · rw [if_neg hj2]
      obtain ⟨m, rfl⟩ : ∃ m, j = n + m + 1 := ⟨j - n - 1, by omega⟩
      by_cases hj3 : n + m < l.length
      · rw [show n + m + 1 - 1 = n + m from by omega,
          List.getElem?_eq_getElem (by omega),
          List.getElem?_eq_getElem (by omega : n + m < l.length)]
        have := List.getElem_insertIdx_add_succ l a n m (by omega)
        rw [this]
      · rw [List.getElem?_eq_none (by omega), List.getElem?_eq_none (by omega)]

lemma dllInsert_none_iff (s : DLL) (i : Int) (v : Int) :
    dllInsert s i v = none ↔ (i < 0 ∨ (s.length : Int) < i) := by
  unfold dllInsert
  by_cases hb : i < 0 ∨ (s.length : Int) < i
  · rw [if_pos hb]
    simp [hb]
  · rw [if_neg hb]
    simp only [hb, iff_false]
    by_cases hi0 : i = 0
    · rw [if_pos hi0]; simp
    · rw [if_neg hi0]
      by_cases hil : i = (s.length : Int)
      · rw [if_pos hil]; simp
      · rw [if_neg hil]
        split <;> try simp
        split <;> try simp
        split <;> simp

lemma chain_insert_some (s : DLL) (ids : List Nat) (i : Int) (v : Int)
    (hch : DllChain s ids) (hb : ¬ (i < 0 ∨ (s.length : Int) < i)) :
    ∃ s2 ids2, dllInsert s i v = some s2 ∧ DllChain s2 ids2 := by
  by_cases hi0 : i = 0
  · refine ⟨dllPrepend s v, s.nextId :: ids, ?_, chain_prepend s ids v hch⟩
    unfold dllInsert
    rw [if_neg hb, if_pos hi0]
  · by_cases hil : i = (s.length : Int)
    · refine ⟨dllAppend s v, ids ++ [s.nextId], ?_, chain_append s ids v hch⟩
      unfold dllInsert
      rw [if_neg hb, if_neg hi0, if_pos hil]
    · -- middle insertion
      have hklt : i.toNat < ids.length := by
        rw [← hch.len_eq]; omega
      have hk0 : 0 < i.toNat := by omega
      set k := i.toNat with hkdef
      set len := ids.length with hlendef
      have hk1lt : k - 1 < ids.length := by omega
      set c := ids[k] with hcdef
      set p := ids[k - 1] with hpdef
      set nid := s.nextId with hniddef
      obtain ⟨cnd, hcnd, hcnext, hcprev⟩ := hch.link k hklt
      obtain ⟨pnd, hpnd, hpnext, hpprev⟩ := hch.link (k - 1) hk1lt
      have hcprev2 : cnd.prev = some p := by
        rw [hcprev, if_neg (by omega), List.getElem?_eq_getElem hk1lt]
      have hpnext2 : pnd.next = some c := by
        rw [hpnext, show k - 1 + 1 = k from by omega, List.getElem?_eq_getElem hklt]
      have hcur : (if k ≤ s.length / 2 then walkNext s s.head k
          else walkPrev s s.tail (s.length - 1 - k)) = some c := by
        by_cases hdir : k ≤ s.length / 2
        · rw [if_pos hdir, hch.head_eq, List.head?_eq_getElem?,
            walkNext_chain s ids hch k 0, Nat.zero_add,
            List.getElem?_eq_getElem hklt]
        · rw [if_neg hdir, hch.tail_eq, List.getLast?_eq_getElem?, hch.len_eq,
            walkPrev_chain s ids hch (ids.length - 1 - k) (ids.length - 1),
            if_pos ⟨by omega, by omega⟩,
            show ids.length - 1 - (ids.length - 1 - k) = k from by omega,
            List.getElem?_eq_getElem hklt]
      have hcp : ¬ c = p := by
        intro hcon
        rw [hcdef, hpdef] at hcon
        have := List.Nodup.getElem_inj_iff hch.nodup |>.mp hcon
        omega
      have hnidc : ¬ nid = c := by
        intro hcon
        have hmem : nid ∈ ids := by
          rw [hcon, hcdef]
          exact List.getElem_mem hklt
        exact nextId_not_mem s ids hch hmem
      have hnidp : ¬ nid = p := by
        intro hcon
        have hmem : nid ∈ ids := by
          rw [hcon, hpdef]
          exact List.getElem_mem hk1lt
        exact nextId_not_mem s ids hch hmem
      have hins : dllInsert s i v = some
          ⟨mupd (mupd (madd s.nodes nid ⟨v, some c, some p⟩) p
              (fun nd => { nd with next := some nid })) c
              (fun nd => { nd with prev := some nid }),
            s.head, s.tail, s.length + 1, s.nextId + 1⟩ := by
        unfold dllInsert
        rw [if_neg hb, if_neg hi0, if_neg hil]
        simp only [← hkdef, ← hniddef, hcur, hcnd, hcprev2]
      set ids2 := ids.insertIdx k nid with hids2
      have hlen2 : ids2.length = len + 1 := by
        rw [hids2, List.length_insertIdx k ids (by omega)]
      have hgv : ∀ j, ids2[j]? =
          if j < k then ids[j]? else if j = k then some nid else ids[j - 1]? :=
        fun j => getElem?_insertIdx ids nid k j (by omega)
      have hmg : ∀ j, mget (mupd (mupd (madd s.nodes nid ⟨v, some c, some p⟩) p
            (fun nd => { nd with next := some nid })) c
            (fun nd => { nd with prev := some nid })) j =
          if c = j then some { cnd with prev := some nid }
          else if p = j then some { pnd with next := some nid }
          else if nid = j then some ⟨v, some c, some p⟩
          else mget s.nodes j := by
        intro j
        rw [mget_mupd, mget_mupd]
        by_cases hjc : c = j
        · rw [if_pos hjc, if_pos hjc, if_neg (fun hh => hcp (hh.trans hjc.symm).symm),
            mget_madd_ne _ _ _ _ (fun hh => hnidc (hh.trans hjc.symm)), ← hjc, hcnd]
          rfl
        · rw [if_neg hjc, if_neg hjc]
          by_cases hjp : p = j
          · rw [if_pos hjp, if_pos hjp,
              mget_madd_ne _ _ _ _ (fun hh => hnidp (hh.trans hjp.symm)), ← hjp, hpnd]
            rfl
          · rw [if_neg hjp, if_neg hjp]
            by_cases hjn : nid = j
            · rw [if_pos hjn, ← hjn, mget_madd_self]
            · rw [if_neg hjn, mget_madd_ne _ _ _ _ hjn]
      have hidval : ∀ (j : Nat) (hj : j < ids.length), j ≠ k → j ≠ k - 1 →
          (¬ c = ids[j]) ∧ (¬ p = ids[j]) ∧ (¬ nid = ids[j]) := by
        intro j hj hjk hjk1
        refine ⟨?_, ?_, ?_⟩
        · intro hcon
          rw [hcdef] at hcon
          have := List.Nodup.getElem_inj_iff hch.nodup |>.mp hcon
          omega
        · intro hcon
          rw [hpdef] at hcon
          have := List.Nodup.getElem_inj_iff hch.nodup |>.mp hcon
          omega
        · intro hcon
          have hmem : nid ∈ ids := by
            rw [hcon]
            exact List.getElem_mem hj
          exact nextId_not_mem s ids hch hmem
      refine ⟨_, ids2, hins, ?_⟩
      refine ⟨?_, ?_, ?_, ?_, ?_, ?_, ?_, ?_⟩
      · exact ((insertIdx_perm ids nid k (by omega)).nodup_iff).mpr
          (List.nodup_cons.mpr ⟨nextId_not_mem s ids hch, hch.nodup⟩)
      · show s.head = ids2.head?
        rw [hch.head_eq, List.head?_eq_getElem?, List.head?_eq_getElem?, hgv 0,
          if_pos hk0]
      · show s.tail = ids2.getLast?
        rw [hch.tail_eq, List.getLast?_eq_getElem?, List.getLast?_eq_getElem?,
          hlen2, Nat.add_sub_cancel, hgv len, if_neg (by omega), if_neg (by omega)]
      · show s.length + 1 = ids2.length
        rw [hlen2, hch.len_eq]
      · intro id hid
        rcases (List.mem_insertIdx (by omega)).mp hid with h1 | h2
        · show id < nid + 1
          omega
        · have := hch.fresh id h2
          show id < nid + 1
          omega
      · intro q hq
        have h1 := keys_mem_of_mem_mupd _ _ _ _ hq
        rw [keys_mupd] at h1
        simp only [madd, List.map_cons, List.mem_cons] at h1
        rcases h1 with h2 | h3
        · rw [h2]
          exact (List.mem_insertIdx (by omega)).mpr (Or.inl rfl)
        · obtain ⟨q2, hq2, hqe⟩ := List.mem_map.mp h3
          rw [← hqe]
          exact (List.mem_insertIdx (by omega)).mpr (Or.inr (hch.keys q2 hq2))
      · rw [keys_mupd, keys_mupd]
        simp only [madd, List.map_cons]
        rw [List.nodup_cons]
        refine ⟨?_, hch.keys_nodup⟩
        intro hcon
        obtain ⟨q, hq, hqe⟩ := List.mem_map.mp hcon
        have := hch.keys q hq
        rw [hqe] at this
        exact nextId_not_mem s ids hch this
      · intro j hj
        rw [hlen2] at hj
        have hval : ∀ (x : Nat), ids2[j]? = some x → ids2[j] = x := by
          intro x hx
          rw [List.getElem?_eq_getElem (by rw [hlen2]; omega)] at hx
          injection hx with hx
        by_cases hA : j < k - 1
        · -- untouched node strictly before the predecessor
          obtain ⟨nd, hnd, hnext, hprev⟩ := hch.link j (by omega)
          have hjval : ids2[j] = ids[j] := by
            apply hval
            rw [hgv j, if_pos (by omega), List.getElem?_eq_getElem (by omega)]
          obtain ⟨hnc, hnp, hnn⟩ := hidval j (by omega) (by omega) (by omega)
          refine ⟨nd, ?_, ?_, ?_⟩
          · rw [hjval, hmg, if_neg hnc, if_neg hnp, if_neg hnn]
            exact hnd
          · rw [hnext, hgv (j + 1), if_pos (by omega)]
          · rw [hprev]
            by_cases hj0 : j = 0
            · rw [if_pos hj0, if_pos hj0]
            · rw [if_neg hj0, if_neg hj0, hgv (j - 1), if_pos (by omega)]
        · by_cases hB : j = k - 1
          · -- the predecessor node: next redirected to the new node
            have hjval : ids2[j] = p := by
              apply hval
              rw [hgv j, if_pos (by omega), hB, List.getElem?_eq_getElem hk1lt]
            refine ⟨{ pnd with next := some nid }, ?_, ?_, ?_⟩
            · rw [hjval, hmg, if_neg hcp, if_pos rfl]
            · show some nid = ids2[j + 1]?
              rw [hgv (j + 1), if_neg (by omega), if_pos (by omega)]
            · show pnd.prev = _
              rw [hpprev, hB]
              by_cases hj0 : k - 1 = 0
              · rw [if_pos hj0, if_pos hj0]
              · rw [if_neg hj0, if_neg hj0, hgv (k - 1 - 1), if_pos (by omega)]
          · by_cases hC : j = k
            · -- the new node
              have hjval : ids2[j] = nid := by
                apply hval
                rw [hgv j, if_neg (by omega), if_pos hC]
              refine ⟨⟨v, some c, some p⟩, ?_, ?_, ?_⟩
              · rw [hjval, hmg, if_neg (fun hh => hnidc hh.symm),
                  if_neg (fun hh => hnidp hh.symm), if_pos rfl]
              · show some c = ids2[j + 1]?
                rw [hgv (j + 1), if_neg (by omega), if_neg (by omega), hC,
                  Nat.add_sub_cancel, List.getElem?_eq_getElem hklt]
              · show some p = _
                rw [if_neg (by omega), hgv (j - 1), if_pos (by omega), hC,
                  List.getElem?_eq_getElem hk1lt]
            · by_cases hD : j = k + 1
              · -- the successor node: prev redirected to the new node
                have hjval : ids2[j] = c := by
                  apply hval
                  rw [hgv j, if_neg (by omega), if_neg (by omega), hD,
                    Nat.add_sub_cancel, List.getElem?_eq_getElem hklt]
                refine ⟨{ cnd with prev := some nid }, ?_, ?_, ?_⟩
                · rw [hjval, hmg, if_pos rfl]
                · show cnd.next = ids2[j + 1]?
                  rw [hcnext, hgv (j + 1), if_neg (by omega), if_neg (by omega), hD]
                  rw [show k + 1 + 1 - 1 = k + 1 from by omega]
                · show some nid = _
                  rw [if_neg (by omega), hgv (j - 1), if_neg (by omega),
                    if_pos (by omega)]
              · -- untouched node strictly after the successor
                obtain ⟨nd, hnd, hnext, hprev⟩ := hch.link (j - 1) (by omega)
                have hjval : ids2[j] = ids[j - 1] := by
                  apply hval
                  rw [hgv j, if_neg (by omega), if_neg (by omega),
                    List.getElem?_eq_getElem (by omega : j - 1 < ids.length)]
                obtain ⟨hnc, hnp, hnn⟩ := hidval (j - 1) (by omega) (by omega) (by omega)
                refine ⟨nd, ?_, ?_, ?_⟩
                · rw [hjval, hmg, if_neg hnc, if_neg hnp, if_neg hnn]
                  exact hnd
                · rw [hnext, show j - 1 + 1 = j from by omega, hgv (j + 1),
                    if_neg (by omega), if_neg (by omega),
                    show j + 1 - 1 = j from by omega]
                · rw [hprev, if_neg (by omega), if_neg (by omega), hgv (j - 1),
                    if_neg (by omega), if_neg (by omega)]

lemma mem_eraseIdx_of_ne (l : List Nat) (m : Nat) (hm : m < l.length) (x : Nat)
    (hx : x ∈ l) (hne : x ≠ l[m]) : x ∈ l.eraseIdx m := by
  obtain ⟨j, hj, hjx⟩ := List.mem_iff_getElem.mp hx
  have hjm : j ≠ m := by
    intro hcon
    subst hcon
    exact hne hjx.symm
  have hlen : (l.eraseIdx m).length = l.length - 1 := List.length_eraseIdx_of_lt hm
  by_cases hjlt : j < m
  · have : (l.eraseIdx m)[j]? = some x := by
      rw [List.getElem?_eraseIdx_of_lt l m j hjlt, List.getElem?_eq_getElem hj, hjx]
    rw [List.getElem?_eq_getElem (by omega)] at this
    injection this with hh
    rw [← hh]
    exact List.getElem_mem _
  · have hge : m ≤ j - 1 := by omega
    have : (l.eraseIdx m)[j - 1]? = some x := by
      rw [List.getElem?_eraseIdx_of_ge l m (j - 1) hge,
        show j - 1 + 1 = j from by omega, List.getElem?_eq_getElem hj, hjx]
    rw [List.getElem?_eq_getElem (by omega)] at this
    injection this with hh
    rw [← hh]
    exact List.getElem_mem _

lemma chain_unlink (s : DLL) (ids : List Nat) (hch : DllChain s ids)
    (m : Nat) (hm : m < ids.length) (nd : DNode)
    (hnd : mget s.nodes ids[m] = some nd) :
    DllChain (dllUnlink s ids[m] nd) (ids.eraseIdx m) := by
  obtain ⟨nd0, hnd0, hnext0, hprev0⟩ := hch.link m hm
  have hndeq : nd0 = nd := by
    rw [hnd] at hnd0
    injection hnd0 with hh
    exact hh.symm
  rw [hndeq] at hnext0 hprev0
  set id := ids[m] with hiddef
  set ids2 := ids.eraseIdx m with hids2
  set len := ids.length with hlendef
  have hlen2 : ids2.length = len - 1 := List.length_eraseIdx_of_lt hm
  have hgv : ∀ j, ids2[j]? = if j < m then ids[j]? else ids[j + 1]? := by
    intro j
    by_cases hj : j < m
    · rw [if_pos hj, hids2, List.getElem?_eraseIdx_of_lt ids m j hj]
    · rw [if_neg hj, hids2, List.getElem?_eraseIdx_of_ge ids m j (by omega)]
  have hprev_pos : ∀ (hm1 : 0 < m), nd.prev = some ids[m - 1] := by
    intro hm1
    rw [hprev0, if_neg (by omega), List.getElem?_eq_getElem (by omega)]
  have hnext_pos : ∀ (hm1 : m + 1 < len), nd.next = some ids[m + 1] := by
    intro hm1
    rw [hnext0, List.getElem?_eq_getElem (by omega)]
  have hprev_ne : ∀ (j : Nat) (hj : j < len), j ≠ m - 1 ∨ m = 0 →
      ¬ nd.prev = some ids[j] := by
    intro j hj hcase hcon
    rw [hprev0] at hcon
    by_cases hm0 : m = 0
    · rw [if_pos hm0] at hcon
      exact Option.noConfusion hcon
    · rw [if_neg hm0, List.getElem?_eq_getElem (by omega)] at hcon
      injection hcon with hh
      have := List.Nodup.getElem_inj_iff hch.nodup |>.mp hh
      rcases hcase with hc1 | hc2
      · omega
      · omega
  have hnext_ne : ∀ (j : Nat) (hj : j < len), j ≠ m + 1 →
      ¬ nd.next = some ids[j] := by
    intro j hj hcase hcon
    rw [hnext0] at hcon
    by_cases hmL : m + 1 < len
    · rw [List.getElem?_eq_getElem (by omega)] at hcon
      injection hcon with hh
      have := List.Nodup.getElem_inj_iff hch.nodup |>.mp hh
      omega
    · rw [List.getElem?_eq_none (by omega)] at hcon
      exact Option.noConfusion hcon
  have hid_ne : ∀ (j : Nat) (hj : j < len), j ≠ m → ¬ ids[j] = id := by
    intro j hj hjm hcon
    rw [hiddef] at hcon
    have := List.Nodup.getElem_inj_iff hch.nodup |>.mp hcon
    omega
  have hmg : ∀ j, mget (dllUnlink s id nd).nodes j =
      if j = id then none
      else if nd.prev = some j then
        (mget s.nodes j).map (fun x => { x with next := nd.next })
      else if nd.next = some j then
        (mget s.nodes j).map (fun x => { x with prev := nd.prev })
      else mget s.nodes j := by
    intro j
    show mget (mdel _ id) j = _
    by_cases hjid : j = id
    · rw [if_pos hjid, hjid, mget_mdel_self]
    · rw [if_neg hjid, mget_mdel_ne _ _ _ hjid]
      cases hp : nd.prev with
      | none =>
        cases hn : nd.next with
        | none =>
          rw [if_neg (fun hh => Option.noConfusion hh),
            if_neg (fun hh => Option.noConfusion hh)]
        | some n0 =>
          rw [if_neg (fun hh => Option.noConfusion hh)]
          by_cases hjn : n0 = j
          · rw [if_pos (by rw [hjn]), mget_mupd, if_pos hjn]
          · rw [if_neg (fun hh => hjn (Option.some.inj hh)), mget_mupd, if_neg hjn]
      | some p0 =>
        have hmpos : 0 < m := by
          by_contra hcon
          have hm0 : m = 0 := by omega
          rw [hprev0, if_pos hm0] at hp
          exact Option.noConfusion hp
        cases hn : nd.next with
        | none =>
          by_cases hjp : p0 = j
          · rw [if_pos (by rw [hjp]), mget_mupd, if_pos hjp]
          · rw [if_neg (fun hh => hjp (Option.some.inj hh)),
              if_neg (fun hh => Option.noConfusion hh), mget_mupd, if_neg hjp]
        | some n0 =>
          have hp0n0 : ¬ p0 = n0 := by
            intro hcon
            have h1 := hprev_pos hmpos
            rw [hp] at h1
            injection h1 with h1
            by_cases hmL : m + 1 < len
            · have h2 := hnext_pos hmL
              rw [hn] at h2
              injection h2 with h2
              rw [h1, h2] at hcon
              have := List.Nodup.getElem_inj_iff hch.nodup |>.mp hcon
              omega
            · rw [hnext0, List.getElem?_eq_none (by omega)] at hn
              exact Option.noConfusion hn
          by_cases hjp : p0 = j
          · rw [if_pos (by rw [hjp]), mget_mupd,
              if_neg (fun hh => hp0n0 (hjp.trans hh.symm)), mget_mupd, if_pos hjp]
          · rw [if_neg (fun hh => hjp (Option.some.inj hh))]
            by_cases hjn : n0 = j
            · rw [if_pos (by rw [hjn]), mget_mupd, if_pos hjn, mget_mupd, if_neg hjp]
            · rw [if_neg (fun hh => hjn (Option.some.inj hh)), mget_mupd,
                if_neg hjn, mget_mupd, if_neg hjp]
  refine ⟨?_, ?_, ?_, ?_, ?_, ?_, ?_, ?_⟩
  · exact List.Nodup.sublist (List.eraseIdx_sublist ids m) hch.nodup
  · -- head
    show (dllUnlink s id nd).head = ids2.head?
    rw [List.head?_eq_getElem?, hgv 0]
    by_cases hm0 : m = 0
    · have hp : nd.prev = none := by rw [hprev0, if_pos hm0]
      show (match nd.prev with
        | some _ => s.head
        | none => nd.next) = _
      rw [hp, if_neg (by omega), hnext0, hm0]
    · have hp : nd.prev = some ids[m - 1] := hprev_pos (by omega)
      show (match nd.prev with
        | some _ => s.head
        | none => nd.next) = _
      rw [hp, if_pos (by omega), hch.head_eq, List.head?_eq_getElem?]
  · -- tail
    show (dllUnlink s id nd).tail = ids2.getLast?
    rw [List.getLast?_eq_getElem?, hlen2, hgv (len - 1 - 1)]
    by_cases hmL : m + 1 < len
    · have hn : nd.next = some ids[m + 1] := hnext_pos hmL
      show (match nd.next with
        | some _ => s.tail
        | none => nd.prev) = _
      rw [hn]
      by_cases hlast : len - 1 - 1 < m
      · omega
      · rw [if_neg hlast, hch.tail_eq, List.getLast?_eq_getElem?,
          show len - 1 - 1 + 1 = len - 1 from by omega]
    · have hn : nd.next = none := by
        rw [hnext0, List.getElem?_eq_none (by omega)]
      show (match nd.next with
        | some _ => s.tail
        | none => nd.prev) = _
      rw [hn, hprev0]
      by_cases hm0 : m = 0
      · rw [if_pos hm0]
        have hlen1 : len = 1 := by omega
        rw [if_neg (by omega : ¬ len - 1 - 1 < m), List.getElem?_eq_none (by omega)]
      · rw [if_neg hm0, if_pos (by omega),
          show len - 1 - 1 = m - 1 from by omega]
  · show s.length - 1 = ids2.length
    rw [hlen2, hch.len_eq]
  · intro x hx
    exact hch.fresh x (List.Sublist.mem hx (List.eraseIdx_sublist ids m))
  · -- keys
    intro q hq
    show q.1 ∈ ids2
    have h1 := mem_mdel_ne _ _ _ hq
    have h2 := mem_mdel _ _ _ hq
    have h3 : q.1 ∈ ids := by
      revert h2
      show q ∈ (match nd.next with
        | some nx => mupd (match nd.prev with
            | some p => mupd s.nodes p (fun x => { x with next := nd.next })
            | none => s.nodes) nx (fun x => { x with prev := nd.prev })
        | none => (match nd.prev with
            | some p => mupd s.nodes p (fun x => { x with next := nd.next })
            | none => s.nodes)) → q.1 ∈ ids
      intro h2
      cases hn : nd.next with
      | none =>
        rw [hn] at h2
        cases hp : nd.prev with
        | none =>
          rw [hp] at h2
          exact hch.keys q h2
        | some p0 =>
          rw [hp] at h2
          have := keys_mem_of_mem_mupd _ _ _ _ h2
          obtain ⟨q2, hq2, hqe⟩ := List.mem_map.mp this
          rw [← hqe]
          exact hch.keys q2 hq2
      | some n0 =>
        rw [hn] at h2
        have := keys_mem_of_mem_mupd _ _ _ _ h2
        cases hp : nd.prev with
        | none =>
          rw [hp] at this
          obtain ⟨q2, hq2, hqe⟩ := List.mem_map.mp this
          rw [← hqe]
          exact hch.keys q2 hq2
        | some p0 =>
          rw [hp] at this
          obtain ⟨q2, hq2, hqe⟩ := List.mem_map.mp this
          have := keys_mem_of_mem_mupd _ _ _ _ hq2
          obtain ⟨q3, hq3, hqe3⟩ := List.mem_map.mp this
          rw [← hqe, ← hqe3]
          exact hch.keys q3 hq3
    exact mem_eraseIdx_of_ne ids m hm q.1 h3 h1
  · -- keys nodup
    show ((mdel _ id).map Prod.fst).Nodup
    apply List.Nodup.sublist (keys_mdel_sublist _ _)
    cases hn : nd.next with
    | none =>
      cases hp : nd.prev with
      | none => exact hch.keys_nodup
      | some p0 => rw [keys_mupd]; exact hch.keys_nodup
    | some n0 =>
      cases hp : nd.prev with
      | none => rw [keys_mupd]; exact hch.keys_nodup
      | some p0 => rw [keys_mupd, keys_mupd]; exact hch.keys_nodup
  · -- link
    intro j hj
    rw [hlen2] at hj
    have hval : ∀ (x : Nat), ids2[j]? = some x → ids2[j] = x := by
      intro x hx
      rw [List.getElem?_eq_getElem (by rw [hlen2]; omega)] at hx
      injection hx with hx
    by_cases hjlt : j < m - 1
    · -- untouched, strictly before the predecessor
      obtain ⟨nx, hnx, hnxn, hnxp⟩ := hch.link j (by omega)
      have hjval : ids2[j] = ids[j] := by
        apply hval
        rw [hgv j, if_pos (by omega), List.getElem?_eq_getElem (by omega)]
      refine ⟨nx, ?_, ?_, ?_⟩
      · rw [hjval, hmg, if_neg (hid_ne j (by omega) (by omega)),
          if_neg (hprev_ne j (by omega) (Or.inl (by omega))),
          if_neg (hnext_ne j (by omega) (by omega))]
        exact hnx
      · rw [hnxn, hgv (j + 1), if_pos (by omega)]
      · rw [hnxp]
        by_cases hj0 : j = 0
        · rw [if_pos hj0, if_pos hj0]
        · rw [if_neg hj0, if_neg hj0, hgv (j - 1), if_pos (by omega)]
    · by_cases hjm1 : j = m - 1 ∧ 0 < m
      · -- the predecessor: next pointer bypasses the removed node
        obtain ⟨hjeq, hmpos⟩ := hjm1
        obtain ⟨nx, hnx, hnxn, hnxp⟩ := hch.link j (by omega)
        have hjval : ids2[j] = ids[j] := by
          apply hval
          rw [hgv j, if_pos (by omega), List.getElem?_eq_getElem (by omega)]
        have hpj : nd.prev = some ids[j] := by
          have h1 : ids[m - 1]? = ids[j]? := by rw [show m - 1 = j from by omega]
          rw [List.getElem?_eq_getElem (by omega), List.getElem?_eq_getElem (by omega)]
            at h1
          injection h1 with h1
          rw [hprev_pos hmpos, h1]
        refine ⟨{ nx with next := nd.next }, ?_, ?_, ?_⟩
        · rw [hjval, hmg, if_neg (hid_ne j (by omega) (by omega)), if_pos hpj, hnx]
          rfl
        · show nd.next = ids2[j + 1]?
          rw [hnext0, hgv (j + 1), show j + 1 = m from by omega]
          by_cases hcond : m < m
          · omega
          · rw [if_neg hcond]
        · show nx.prev = _
          rw [hnxp]
          by_cases hj0 : j = 0
          · rw [if_pos hj0, if_pos hj0]
          · rw [if_neg hj0, if_neg hj0, hgv (j - 1), if_pos (by omega)]
      · by_cases hjm : j = m ∧ m + 1 < len
        · -- the successor: prev pointer bypasses the removed node
          obtain ⟨hjeq, hmL⟩ := hjm
          obtain ⟨nx, hnx, hnxn, hnxp⟩ := hch.link (j + 1) (by omega)
          have hjval : ids2[j] = ids[j + 1] := by
            apply hval
            rw [hgv j, if_neg (by omega), List.getElem?_eq_getElem (by omega)]
          have hnj : nd.next = some ids[j + 1] := by
            have h1 : ids[m + 1]? = ids[j + 1]? := by
              rw [show m + 1 = j + 1 from by omega]
            rw [List.getElem?_eq_getElem (by omega), List.getElem?_eq_getElem (by omega)]
              at h1
            injection h1 with h1
            rw [hnext_pos (by omega), h1]
          refine ⟨{ nx with prev := nd.prev }, ?_, ?_, ?_⟩
          · rw [hjval, hmg, if_neg (hid_ne (j + 1) (by omega) (by omega)),
              if_neg (hprev_ne (j + 1) (by omega) (Or.inl (by omega))), if_pos hnj,
              hnx]
            rfl
          · show nx.next = ids2[j + 1]?
            rw [hnxn, hgv (j + 1), if_neg (by omega),
              show j + 1 + 1 = j + 2 from rfl]
          · show nd.prev = _
            rw [hprev0, show m = j from by omega]
            by_cases hj0 : j = 0
            · rw [if_pos hj0, if_pos hj0]
            · rw [if_neg hj0, if_neg hj0, hgv (j - 1), if_pos (by omega)]
        · -- untouched, strictly after the removed node (or no such special case)
          have hjge : m ≤ j := by omega
          have hjm2 : j ≠ m ∨ ¬ m + 1 < len := by tauto
          have hjgt : m < j + 1 := by omega
          obtain ⟨nx, hnx, hnxn, hnxp⟩ := hch.link (j + 1) (by omega)
          have hjval : ids2[j] = ids[j + 1] := by
            apply hval
            rw [hgv j, if_neg (by omega), List.getElem?_eq_getElem (by omega)]
          have hne1 : j + 1 ≠ m + 1 := by
            rcases hjm2 with hc | hc
            · omega
            · omega
          refine ⟨nx, ?_, ?_, ?_⟩
          · rw [hjval, hmg, if_neg (hid_ne (j + 1) (by omega) (by omega)),
              if_neg (hprev_ne (j + 1) (by omega) (Or.inl (by omega))),
              if_neg (hnext_ne (j + 1) (by omega) hne1)]
            exact hnx
          · rw [hnxn, hgv (j + 1), if_neg (by omega)]
          · rw [hnxp, if_neg (by omega), if_neg (by omega), hgv (j - 1),
              if_neg (by omega), show j - 1 + 1 = j from by omega,
              Nat.add_sub_cancel]

lemma dllDeleteLoop_chain (s : DLL) (ids : List Nat) (key : Int)
    (hch : DllChain s ids) :
    ∀ (fuel j : Nat), ids.length - j ≤ fuel →
      dllDeleteLoop s key fuel ids[j]? = (s, false) ∨
      ∃ m, ∃ hm : m < ids.length, ∃ nd, mget s.nodes ids[m] = some nd ∧
        dllDeleteLoop s key fuel ids[j]? = (dllUnlink s ids[m] nd, true) := by
  intro fuel
  induction fuel with
  | zero =>
    intro j hfj
    left
    rw [List.getElem?_eq_none (by omega)]
    rfl
  | succ fuel ih =>
    intro j hfj
    cases hk : ids[j]? with
    | none => left; rfl
    | some id =>
      have hjlt : j < ids.length := by
        by_contra hcon
        rw [List.getElem?_eq_none (by omega)] at hk
        exact Option.noConfusion hk
      rw [List.getElem?_eq_getElem hjlt] at hk
      injection hk with hk
      obtain ⟨nd, hnd, hnext, _⟩ := hch.link j hjlt
      have hstep : dllDeleteLoop s key (fuel + 1) (some id) =
          (if nd.data = key then (dllUnlink s id nd, true)
           else dllDeleteLoop s key fuel nd.next) := by
        show (match mget s.nodes id with
          | none => (s, false)
          | some nd =>
            if nd.data = key then (dllUnlink s id nd, true)
            else dllDeleteLoop s key fuel nd.next) = _
        rw [← hk, hnd]
      rw [hstep]
      by_cases hdata : nd.data = key
      · right
        refine ⟨j, hjlt, nd, hnd, ?_⟩
        rw [if_pos hdata, ← hk]
      · rw [if_neg hdata, hnext]
        exact ih (j + 1) (by omega)

lemma chain_delete (s : DLL) (ids : List Nat) (key : Int) (hch : DllChain s ids) :
    ∃ ids2, DllChain (dllDelete s key).1 ids2 := by
  have hstart : s.head = ids[0]? := by
    rw [hch.head_eq, List.head?_eq_getElem?]
  have h := dllDeleteLoop_chain s ids key hch s.length 0 (by rw [hch.len_eq]; omega)
  unfold dllDelete
  rw [hstart]
  rcases h with h1 | ⟨m, hm, nd, hnd, h2⟩
  · rw [h1]
    exact ⟨ids, hch⟩
  · rw [h2]
    exact ⟨ids.eraseIdx m, chain_unlink s ids hch m hm nd hnd⟩

lemma chain_apply (s : DLL) (ids : List Nat) (op : DllOp) (hch : DllChain s ids) :
    ∃ ids2, DllChain (dllApply s op) ids2 := by
  cases op with
  | append v => exact ⟨ids ++ [s.nextId], chain_append s ids v hch⟩
  | prepend v => exact ⟨s.nextId :: ids, chain_prepend s ids v hch⟩
  | insert i v =>
    show ∃ ids2, DllChain (match dllInsert s i v with
      | some s2 => s2
      | none => s) ids2
    cases h : dllInsert s i v with
    | none => exact ⟨ids, hch⟩
    | some s2 =>
      have hb : ¬ (i < 0 ∨ (s.length : Int) < i) := by
        intro hcon
        rw [(dllInsert_none_iff s i v).mpr hcon] at h
        exact Option.noConfusion h
      obtain ⟨s3, ids2, heq, hch2⟩ := chain_insert_some s ids i v hch hb
      rw [heq] at h
      injection h with h
      exact ⟨ids2, h ▸ hch2⟩
  | delete key => exact chain_delete s ids key hch
  | popFront =>
    show ∃ ids2, DllChain (match dllPopFront s with
      | some (_, s2) => s2
      | none => s) ids2
    cases hids : ids with
    | nil =>
      rw [chain_popFront_nil s (hids ▸ hch)]
      exact ⟨ids, hch⟩
    | cons h t =>
      obtain ⟨nd, s2, _, hpop, hch2⟩ := chain_popFront_cons s h t (hids ▸ hch)
      rw [hpop]
      exact ⟨t, hch2⟩

lemma chain_run (ops : List DllOp) : ∃ ids, DllChain (dllRun ops) ids := by
  suffices h : ∀ (s : DLL) (ids : List Nat), DllChain s ids →
      ∃ ids2, DllChain (ops.foldl dllApply s) ids2 by
    exact h dllEmpty [] chain_empty
  induction ops with
  | nil => intro s ids hch; exact ⟨ids, hch⟩
  | cons op rest ih =>
    intro s ids hch
    obtain ⟨ids2, hch2⟩ := chain_apply s ids op hch
    exact ih (dllApply s op) ids2 hch2

/-! ## C5: doubly linked list link integrity -/

/-- C5.  Every `DoublyLinkedList` state reachable from the empty list by any
sequence of `append`, `prepend`, `insert`, `delete` and `pop_front` calls is
symmetrically linked: every node `n` with `n.next = m` has `m.prev = n`, the
head node has `prev = None` and the tail node has `next = None`. -/
theorem claim5_dll_symmetric_links (ops : List DllOp) : SymLinked (dllRun ops) := by
  obtain ⟨ids, hch⟩ := chain_run ops
  exact symLinked_of_chain _ ids hch

/-! ## C6: empty-container errors -/

/-- C6.  `Stack.pop`/`peek`, `Heap.pop`/`peek`, `DoublyLinkedList.pop_front`/
`peek_front`/`peek_back` and `Queue.dequeue`/`front`/`back` raise the
empty-container `IndexError` (modelled by `none`) if and only if the container
is empty; on a non-empty container each succeeds and returns/removes the
correct end element: the stack its last pushed item, the heap its root (which
no stored element beats under `is_better`), the doubly linked list the data of
its first node (`pop_front`/`peek_front`) resp. the last element of
`traverse()` (`peek_back`), and the queue behaves as its backing list. -/
theorem claim6_empty_container_errors
    (s : DLL) (ids : List Nat) (hch : DllChain s ids)
    (isB : Int → Int → Bool)
    (hA : ∀ a b, isB a b = true → isB b a = false)
    (hT : ∀ a b c, isB a b = true → isB b c = true → isB a c = true)
    (hN : ∀ a b c, isB a b = false → isB b c = false → isB a c = false)
    (st0 : List Int) (hheap : IsHeapProp isB st0) :
    (∀ st : List Int, ((stackPop st = none) ↔ st = []) ∧
      ((stackPeek st = none) ↔ st = []) ∧
      ∀ v, stackPop (stackPush st v) = some (v, st) ∧
        stackPeek (stackPush st v) = some v) ∧
    (((popHeap isB st0 = none) ↔ st0 = []) ∧
      ((peekHeap st0 = none) ↔ st0 = []) ∧
      (st0 ≠ [] → peekHeap st0 = some (geti st0 0) ∧
        (∀ x ∈ st0, isB x (geti st0 0) = false) ∧
        ∃ st2, popHeap isB st0 = some (geti st0 0, st2) ∧
          st2.length + 1 = st0.length ∧ st0.Perm (geti st0 0 :: st2) ∧
          IsHeapProp isB st2)) ∧
    (((dllPopFront s = none) ↔ ids = []) ∧
      ((dllPeekFront s = none) ↔ ids = []) ∧
      ((dllPeekBack s = none) ↔ ids = []) ∧
      ∀ h t, ids = h :: t → ∃ nd s2, mget s.nodes h = some nd ∧
        dllPopFront s = some (nd.data, s2) ∧ DllChain s2 t ∧
        dllPeekFront s = some nd.data ∧
        (dllTraverse s).head? = some nd.data ∧
        ∃ b, dllPeekBack s = some b ∧ (dllTraverse s).getLast? = some b) ∧
    (queueDequeue s = dllPopFront s ∧ queueFront s = dllPeekFront s ∧
      queueBack s = dllPeekBack s ∧
      ((queueDequeue s = none) ↔ ids = []) ∧
      ((queueFront s = none) ↔ ids = []) ∧
      ((queueBack s = none) ↔ ids = [])) := by
  -- Stack block
  have hstack : ∀ st : List Int, ((stackPop st = none) ↔ st = []) ∧
      ((stackPeek st = none) ↔ st = []) ∧
      ∀ v, stackPop (stackPush st v) = some (v, st) ∧
        stackPeek (stackPush st v) = some v := by
    intro st
    refine ⟨?_, ?_, ?_⟩
    · constructor
      · intro hnone
        cases hgl : st.getLast? with
        | none => exact List.getLast?_eq_none_iff.mp hgl
        | some v =>
          unfold stackPop at hnone
          rw [hgl] at hnone
          exact Option.noConfusion hnone
      · intro hst; subst hst; rfl
    · unfold stackPeek; exact List.getLast?_eq_none_iff
    · intro v
      constructor
      · unfold stackPop stackPush
        rw [List.getLast?_concat st, List.dropLast_concat]
      · unfold stackPeek stackPush
        rw [List.getLast?_concat st]
  -- Heap block
  have hpopiff : (popHeap isB st0 = none) ↔ st0 = [] := by
    cases st0 with
    | nil => exact ⟨fun _ => rfl, fun _ => rfl⟩
    | cons x xs =>
      constructor
      · intro hnone
        have hpe : popHeap isB (x :: xs) =
            (if (x :: xs).dropLast.isEmpty then some (geti (x :: xs) 0, [])
             else some (geti (x :: xs) 0,
               siftDown isB ((x :: xs).dropLast.set 0 ((x :: xs).getLast?.getD 0))
                 (x :: xs).dropLast.length 0)) := rfl
        rw [hpe] at hnone
        split at hnone <;> exact Option.noConfusion hnone
      · intro hcon; exact List.noConfusion hcon
  have hpeekiff : (peekHeap st0 = none) ↔ st0 = [] := by
    unfold peekHeap; exact List.head?_eq_none_iff
  have hheapne : st0 ≠ [] → peekHeap st0 = some (geti st0 0) ∧
      (∀ x ∈ st0, isB x (geti st0 0) = false) ∧
      ∃ st2, popHeap isB st0 = some (geti st0 0, st2) ∧
        st2.length + 1 = st0.length ∧ st0.Perm (geti st0 0 :: st2) ∧
        IsHeapProp isB st2 := by
    intro hne
    refine ⟨?_, heapRoot_best isB hA hN st0 hheap, popHeap_spec isB hA hT st0 hne hheap⟩
    obtain ⟨x, xs, rfl⟩ := List.exists_cons_of_ne_nil hne
    rfl
  -- DLL block
  have hcons : ∀ h t, ids = h :: t → ∃ nd s2, mget s.nodes h = some nd ∧
      dllPopFront s = some (nd.data, s2) ∧ DllChain s2 t ∧
      dllPeekFront s = some nd.data ∧
      (dllTraverse s).head? = some nd.data ∧
      ∃ b, dllPeekBack s = some b ∧ (dllTraverse s).getLast? = some b := by
    intro h t hids
    have hch2 := hids ▸ hch
    obtain ⟨nd, s2, hnd, hpop, hcht⟩ := chain_popFront_cons s h t hch2
    have hhead : s.head = some h := by rw [hch2.head_eq]; rfl
    have hpeekf : dllPeekFront s = some nd.data := by
      unfold dllPeekFront
      rw [hhead]
      show (mget s.nodes h).map DNode.data = some nd.data
      rw [hnd]
      rfl
    have htrav : dllTraverse s = dllDataList s (h :: t) := by
      rw [← hids]
      exact dllTraverse_chain s ids hch
    have hheadq : (dllTraverse s).head? = some nd.data := by
      rw [htrav]
      show some (((mget s.nodes h).map DNode.data).getD 0) = some nd.data
      rw [hnd]
      rfl
    have hm : (h :: t).length - 1 < (h :: t).length := by simp
    obtain ⟨nd2, hnd2, _, _⟩ := hch2.link ((h :: t).length - 1) hm
    have htail : s.tail = some ((h :: t)[(h :: t).length - 1]) := by
      rw [hch2.tail_eq, List.getLast?_eq_getElem?, List.getElem?_eq_getElem hm]
    have hpeekb : dllPeekBack s = some nd2.data := by
      unfold dllPeekBack
      rw [htail]
      show (mget s.nodes (h :: t)[(h :: t).length - 1]).map DNode.data = some nd2.data
      rw [hnd2]
      rfl
    have hlastq : (dllTraverse s).getLast? = some nd2.data := by
      rw [htrav]
      unfold dllDataList
      rw [List.getLast?_map, List.getLast?_eq_getElem?,
        List.getElem?_eq_getElem hm]
      show some (((mget s.nodes (h :: t)[(h :: t).length - 1]).map DNode.data).getD 0) =
        some nd2.data
      rw [hnd2]
      rfl
    exact ⟨nd, s2, hnd, hpop, hcht, hpeekf, hheadq, nd2.data, hpeekb, hlastq⟩
  have hdpop : (dllPopFront s = none) ↔ ids = [] := by
    constructor
    · intro hnone
      cases hids : ids with
      | nil => rfl
      | cons h t =>
        obtain ⟨nd, s2, _, hpop, _⟩ := hcons h t hids
        rw [hpop] at hnone
        exact Option.noConfusion hnone
    · intro hids
      exact chain_popFront_nil s (hids ▸ hch)
  have hdpeekf : (dllPeekFront s = none) ↔ ids = [] := by
    constructor
    · intro hnone
      cases hids : ids with
      | nil => rfl
      | cons h t =>
        obtain ⟨nd, s2, _, _, _, hpeekf, _⟩ := hcons h t hids
        rw [hpeekf] at hnone
        exact Option.noConfusion hnone
    · intro hids
      have hhead : s.head = none := by rw [hch.head_eq, hids]; rfl
      unfold dllPeekFront
      rw [hhead]
  have hdpeekb : (dllPeekBack s = none) ↔ ids = [] := by
    constructor
    · intro hnone
      cases hids : ids with
      | nil => rfl
      | cons h t =>
        obtain ⟨nd, s2, _, _, _, _, _, b, hpeekb, _⟩ := hcons h t hids
        rw [hpeekb] at hnone
        exact Option.noConfusion hnone
    · intro hids
      have htail : s.tail = none := by rw [hch.tail_eq, hids]; rfl
      unfold dllPeekBack
      rw [htail]
  -- Queue block
  have hqd : queueDequeue s = dllPopFront s := by
    unfold queueDequeue
    by_cases he : dllIsEmpty s
    · rw [if_pos he]
      unfold dllIsEmpty at he
      have hhead : s.head = none := Option.isNone_iff_eq_none.mp he
      unfold dllPopFront
      rw [hhead]
    · rw [if_neg he]
  have hqf : queueFront s = dllPeekFront s := by
    unfold queueFront
    by_cases he : dllIsEmpty s
    · rw [if_pos he]
      unfold dllIsEmpty at he
      have hhead : s.head = none := Option.isNone_iff_eq_none.mp he
      unfold dllPeekFront
      rw [hhead]
    · rw [if_neg he]
  have hqb : queueBack s = dllPeekBack s := by
    unfold queueBack
    by_cases he : dllIsEmpty s
    · rw [if_pos he]
      unfold dllIsEmpty at he
      have hhead : s.head = none := Option.isNone_iff_eq_none.mp he
      have htail : s.tail = none := by
        rw [hch.tail_eq]
        have hids : ids = [] := by
          have := hch.head_eq
          rw [hhead] at this
          exact List.head?_eq_none_iff.mp this.symm
        rw [hids]
        rfl
      unfold dllPeekBack
      rw [htail]
    · rw [if_neg he]
  exact ⟨hstack, ⟨hpopiff, hpeekiff, hheapne⟩,
    ⟨hdpop, hdpeekf, hdpeekb, hcons⟩,
    ⟨hqd, hqf, hqb, hqd ▸ hdpop, hqf ▸ hdpeekf, hqb ▸ hdpeekb⟩⟩

/-- Witness for C6 at concrete containers: the stack `[1, 2]` after pushing
`7`, the max-heap array `[3, 1, 2]`, and the one-element doubly linked list
obtained by appending `5` to the empty list. -/
theorem claim6_empty_container_errors_witness :
    stackPop (stackPush [1, 2] 7) = some (7, [1, 2]) ∧
    peekHeap [3, 1, 2] = some (geti [3, 1, 2] 0) ∧
    ((dllPopFront (dllAppend dllEmpty 5) = none) ↔
      ([dllEmpty.nextId] : List Nat) = []) := by
  have h := claim6_empty_container_errors (dllAppend dllEmpty 5) [dllEmpty.nextId]
    (chain_append dllEmpty [] 5 chain_empty) heapPyMaxIsBetter maxIsBetter_asymm
    maxIsBetter_trans maxIsBetter_negTrans [3, 1, 2] (by decide)
  exact ⟨((h.1 [1, 2]).2.2 7).1, (h.2.1.2.2 (by decide)).1, h.2.2.1.1⟩

lemma sllInsert_none_iff (s : SLL) (i : Int) (v : Int) :
    sllInsert s i v = none ↔ (i < 0 ∨ (s.length : Int) < i) := by
  unfold sllInsert
  by_cases hb : i < 0 ∨ (s.length : Int) < i
  · simp [hb]
  · rw [if_neg hb]
    simp only [hb, iff_false]
    by_cases hi0 : i = 0
    · rw [if_pos hi0]; simp
    · rw [if_neg hi0]; simp

lemma sllGet_some (s : SLL) (hwf : sllWf s) (i : Int)
    (hb : ¬ (i < 0 ∨ (s.length : Int) ≤ i)) :
    sllGet s i = some (geti s.chain i.toNat) := by
  have hklt : i.toNat < s.chain.length := by
    unfold sllWf at hwf; omega
  unfold sllGet
  rw [if_neg hb, List.drop_eq_getElem_cons hklt,
    geti_eq_getElem s.chain i.toNat hklt]

lemma sllGet_none_iff (s : SLL) (hwf : sllWf s) (i : Int) :
    sllGet s i = none ↔ (i < 0 ∨ (s.length : Int) ≤ i) := by
  by_cases hb : i < 0 ∨ (s.length : Int) ≤ i
  · simp [sllGet, hb]
  · rw [sllGet_some s hwf i hb]
    simp [hb]

lemma dllGet_chain (s : DLL) (ids : List Nat) (hch : DllChain s ids)
    (i : Int) (hb : ¬ (i < 0 ∨ (s.length : Int) ≤ i)) :
    ∃ hk : i.toNat < ids.length,
      (if i.toNat ≤ s.length / 2 then walkNext s s.head i.toNat
        else walkPrev s s.tail (s.length - 1 - i.toNat)) = some ids[i.toNat] ∧
      ∃ nd, mget s.nodes ids[i.toNat] = some nd ∧ dllGet s i = some nd.data := by
  have hklt : i.toNat < ids.length := by
    rw [← hch.len_eq]; omega
  set k := i.toNat with hkdef
  obtain ⟨nd, hnd, _, _⟩ := hch.link k hklt
  have hcur : (if k ≤ s.length / 2 then walkNext s s.head k
      else walkPrev s s.tail (s.length - 1 - k)) = some ids[k] := by
    by_cases hdir : k ≤ s.length / 2
    · rw [if_pos hdir, hch.head_eq, List.head?_eq_getElem?,
        walkNext_chain s ids hch k 0, Nat.zero_add,
        List.getElem?_eq_getElem hklt]
    · rw [if_neg hdir, hch.tail_eq, List.getLast?_eq_getElem?, hch.len_eq,
        walkPrev_chain s ids hch (ids.length - 1 - k) (ids.length - 1),
        if_pos ⟨by omega, by omega⟩,
        show ids.length - 1 - (ids.length - 1 - k) = k from by omega,
        List.getElem?_eq_getElem hklt]
  refine ⟨hklt, hcur, nd, hnd, ?_⟩
  unfold dllGet
  rw [if_neg hb]
  simp only [← hkdef, hcur]
  show (mget s.nodes ids[k]).map DNode.data = some nd.data
  rw [hnd]
  rfl

lemma dllGet_none_iff (s : DLL) (ids : List Nat) (hch : DllChain s ids) (i : Int) :
    dllGet s i = none ↔ (i < 0 ∨ (s.length : Int) ≤ i) := by
  by_cases hb : i < 0 ∨ (s.length : Int) ≤ i
  · simp [dllGet, hb]
  · obtain ⟨hk, _, nd, _, hget⟩ := dllGet_chain s ids hch i hb
    rw [hget]
    simp [hb]

/-! ## C7: index bounds for linked-list insert and get -/

/-- C7.  For a `SinglyLinkedList` (under the length invariant) and a
`DoublyLinkedList` (on a reachable state): `insert(i, v)` raises `IndexError`
(modelled by `none`) iff `i < 0` or `i > length`, `get(i)` raises iff `i < 0`
or `i >= length`; on a non-empty list `get` succeeds at the boundary indices
`0` and `length - 1`, while `get(-1)` and `get(length)` fail. -/
theorem claim7_index_bounds (s : SLL) (hwf : sllWf s)
    (d : DLL) (ids : List Nat) (hch : DllChain d ids) :
    (∀ i v, sllInsert s i v = none ↔ (i < 0 ∨ (s.length : Int) < i)) ∧
    (∀ i, sllGet s i = none ↔ (i < 0 ∨ (s.length : Int) ≤ i)) ∧
    (s.length ≠ 0 →
      sllGet s 0 = some (geti s.chain 0) ∧
      sllGet s ((s.length : Int) - 1) = some (geti s.chain (s.length - 1)) ∧
      sllGet s (-1) = none ∧ sllGet s (s.length : Int) = none) ∧
    (∀ i v, dllInsert d i v = none ↔ (i < 0 ∨ (d.length : Int) < i)) ∧
    (∀ i, dllGet d i = none ↔ (i < 0 ∨ (d.length : Int) ≤ i)) ∧
    (d.length ≠ 0 →
      (∃ x, dllGet d 0 = some x) ∧
      (∃ y, dllGet d ((d.length : Int) - 1) = some y) ∧
      dllGet d (-1) = none ∧ dllGet d (d.length : Int) = none) := by
  refine ⟨fun i v => sllInsert_none_iff s i v, fun i => sllGet_none_iff s hwf i,
    ?_, fun i v => dllInsert_none_iff d i v, fun i => dllGet_none_iff d ids hch i,
    ?_⟩
  · intro hne
    refine ⟨?_, ?_, ?_, ?_⟩
    · have h := sllGet_some s hwf 0 (by omega)
      rw [h]
      rfl
    · have h := sllGet_some s hwf ((s.length : Int) - 1) (by omega)
      rw [h, show ((s.length : Int) - 1).toNat = s.length - 1 from by omega]
    · exact (sllGet_none_iff s hwf (-1)).mpr (by omega)
    · exact (sllGet_none_iff s hwf (s.length : Int)).mpr (by omega)
  · intro hne
    refine ⟨?_, ?_, ?_, ?_⟩
    · obtain ⟨hk, _, nd, _, hget⟩ := dllGet_chain d ids hch 0 (by omega)
      exact ⟨nd.data, hget⟩
    · obtain ⟨hk, _, nd, _, hget⟩ :=
        dllGet_chain d ids hch ((d.length : Int) - 1) (by omega)
      exact ⟨nd.data, hget⟩
    · exact (dllGet_none_iff d ids hch (-1)).mpr (by omega)
    · exact (dllGet_none_iff d ids hch (d.length : Int)).mpr (by omega)

/-- Witness for C7: the two-element singly linked list `[4, 5]` and the
one-element doubly linked list obtained by appending `5` to the empty list. -/
theorem claim7_index_bounds_witness :
    sllInsert ⟨[4, 5], 2⟩ 3 9 = none ∧
    sllGet ⟨[4, 5], 2⟩ 0 = some (geti [4, 5] 0) ∧
    dllGet (dllAppend dllEmpty 5) (-1) = none := by
  have h := claim7_index_bounds ⟨[4, 5], 2⟩ (by decide) (dllAppend dllEmpty 5)
    [dllEmpty.nextId] (chain_append dllEmpty [] 5 chain_empty)
  exact ⟨(h.1 3 9).mpr (by decide), (h.2.2.1 (by decide)).1,
    (h.2.2.2.2.2 (by decide)).2.2.1⟩

/-! ## C10: the trailing fallback raise in get is unreachable -/

/-- C10.  In `SinglyLinkedList.get` and `DoublyLinkedList.get`, whenever the
initial bounds check passes (`0 <= index < length`) and the length field
matches the chain reachable from `_head`, the guarded traversal ends on a
non-`None` node and `get` returns that node's data, so the trailing fallback
`raise IndexError` after the traversal is unreachable. -/
theorem claim10_get_fallback_unreachable (s : SLL) (hwf : sllWf s)
    (d : DLL) (ids : List Nat) (hch : DllChain d ids) (i : Int) (hlo : 0 ≤ i) :
    (i < (s.length : Int) →
      s.chain.drop i.toNat ≠ [] ∧ sllGet s i = some (geti s.chain i.toNat)) ∧
    (i < (d.length : Int) →
      (∃ id nd, (if i.toNat ≤ d.length / 2 then walkNext d d.head i.toNat
          else walkPrev d d.tail (d.length - 1 - i.toNat)) = some id ∧
        mget d.nodes id = some nd ∧ dllGet d i = some nd.data) ∧
      dllGet d i ≠ none) := by
  constructor
  · intro hhi
    have hklt : i.toNat < s.chain.length := by
      unfold sllWf at hwf; omega
    constructor
    · rw [List.drop_eq_getElem_cons hklt]
      exact List.cons_ne_nil _ _
    · exact sllGet_some s hwf i (by omega)
  · intro hhi
    obtain ⟨hk, hcur, nd, hnd, hget⟩ := dllGet_chain d ids hch i (by omega)
    refine ⟨⟨ids[i.toNat], nd, hcur, hnd, hget⟩, ?_⟩
    rw [hget]
    exact fun h => Option.noConfusion h

lemma gLookup_mem (adj : List (Int × List Int)) (v : Int) (ns : List Int)
    (h : gLookup adj v = some ns) : (v, ns) ∈ adj := by
  induction adj with
  | nil => exact Option.noConfusion h
  | cons p rest ih =>
    rw [gLookup] at h
    by_cases hp : p.1 = v
    · rw [if_pos hp] at h
      injection h with h
      have hpe : p = (v, ns) := by
        rw [Prod.ext_iff]
        exact ⟨hp, h⟩
      rw [hpe]
      exact List.mem_cons_self _ _
    · rw [if_neg hp] at h
      exact List.mem_cons_of_mem p (ih h)

lemma gContains_mem_keys (g : GraphS) (v : Int) (h : gContains g v = true) :
    v ∈ gKeys g := by
  unfold gContains at h
  cases hlk : gLookup g.adj v with
  | none => rw [hlk] at h; exact Bool.noConfusion h
  | some ns => exact List.mem_map_of_mem Prod.fst (gLookup_mem g.adj v ns hlk)

lemma adjOf_subset_keys (g : GraphS) (hwf : GraphWf g) (v : Int) :
    ∀ w ∈ adjOf g v, w ∈ gKeys g := by
  intro w hw
  unfold adjOf at hw
  cases h : gLookup g.adj v with
  | none => rw [h] at hw; exact absurd hw (List.not_mem_nil w)
  | some ns =>
    rw [h] at hw
    exact (hwf.2 (v, ns) (gLookup_mem g.adj v ns h)).2 w hw

lemma adjOf_length_le_sumDeg (g : GraphS) (v : Int) :
    (adjOf g v).length ≤ sumDeg g := by
  unfold adjOf
  cases h : gLookup g.adj v with
  | none => exact Nat.zero_le _
  | some ns =>
    have hm : ns.length ∈ g.adj.map (fun p => p.2.length) :=
      List.mem_map_of_mem (fun p => p.2.length) (gLookup_mem g.adj v ns h)
    exact List.single_le_sum (fun _ _ => Nat.zero_le _) _ hm

lemma mem_sortAsc (l : List Int) (w : Int) : w ∈ sortAsc l ↔ w ∈ l :=
  (List.perm_insertionSort (fun a b => a ≤ b) l).mem_iff

lemma mem_sortDesc (l : List Int) (w : Int) : w ∈ sortDesc l ↔ w ∈ l :=
  (List.perm_insertionSort (fun a b => b ≤ a) l).mem_iff

lemma nodup_keys_length_le (g : GraphS) (l : List Int) (hnd : l.Nodup)
    (hsub : ∀ x ∈ l, x ∈ gKeys g) : l.length ≤ g.adj.length := by
  have h := (hnd.subperm (fun a ha => hsub a ha)).length_le
  have hk : (gKeys g).length = g.adj.length := by simp [gKeys]
  omega

lemma bfsVisit_spec : ∀ (ws seen q : List Int), ∃ news,
    bfsVisit ws seen q = (seen ++ news, q ++ news) ∧ news.Nodup ∧
    (∀ w ∈ news, w ∈ ws ∧ w ∉ seen) ∧
    (∀ w ∈ ws, w ∈ seen ++ news) := by
  intro ws
  induction ws with
  | nil =>
    intro seen q
    exact ⟨[], by simp [bfsVisit], List.nodup_nil,
      fun w hw => absurd hw (List.not_mem_nil w),
      fun w hw => absurd hw (List.not_mem_nil w)⟩
  | cons w ws ih =>
    intro seen q
    by_cases hw : w ∈ seen
    · obtain ⟨news, heq, hnd, hprop, hcov⟩ := ih seen q
      refine ⟨news, ?_, hnd, ?_, ?_⟩
      · show (if w ∈ seen then bfsVisit ws seen q
          else bfsVisit ws (seen ++ [w]) (q ++ [w])) = (seen ++ news, q ++ news)
        rw [if_pos hw, heq]
      · intro x hx
        exact ⟨List.mem_cons_of_mem w (hprop x hx).1, (hprop x hx).2⟩
      · intro x hx
        rcases List.mem_cons.mp hx with h | h
        · subst h; exact List.mem_append_left news hw
        · exact hcov x h
    · obtain ⟨news, heq, hnd, hprop, hcov⟩ := ih (seen ++ [w]) (q ++ [w])
      refine ⟨w :: news, ?_, ?_, ?_, ?_⟩
      · show (if w ∈ seen then bfsVisit ws seen q
          else bfsVisit ws (seen ++ [w]) (q ++ [w])) = (seen ++ w :: news, q ++ w :: news)
        rw [if_neg hw, heq]
        simp
      · refine List.nodup_cons.mpr ⟨?_, hnd⟩
        intro hmem
        exact (hprop w hmem).2 (List.mem_append_right seen (List.mem_singleton.mpr rfl))
      · intro x hx
        rcases List.mem_cons.mp hx with h | h
        · rw [h]
          exact ⟨List.mem_cons_self w ws, hw⟩
        · exact ⟨List.mem_cons_of_mem w (hprop x h).1,
            fun hcon => (hprop x h).2 (List.mem_append_left [w] hcon)⟩
      · intro x hx
        rcases List.mem_cons.mp hx with h | h
        · rw [h]
          exact List.mem_append_right seen (List.mem_cons_self w news)
        · have h2 := hcov x h
          simp only [List.append_assoc, List.singleton_append] at h2
          exact h2

lemma bfsLoop_spec (g : GraphS) (hwf : GraphWf g) (s : Int) :
    ∀ (fuel : Nat) (q seen res : List Int),
      seen.Nodup →
      res ++ q = seen →
      (∀ v ∈ seen, v ∈ gKeys g) →
      (∀ v ∈ seen, Reach g s v) →
      (∀ u ∈ res, ∀ w ∈ adjOf g u, w ∈ seen) →
      q.length + g.adj.length ≤ fuel + seen.length →
      ∃ out, bfsLoop g fuel q seen res = out ∧ out.Nodup ∧
        (∀ v ∈ seen, v ∈ out) ∧ (∀ v ∈ out, Reach g s v) ∧
        (∀ u ∈ out, ∀ w ∈ adjOf g u, w ∈ out) := by
  intro fuel
  induction fuel with
  | zero =>
    intro q seen res h1 h2 h3 h4 h5 h6
    cases q with
    | nil =>
      have hres : res = seen := by
        rw [← h2, List.append_nil]
      subst hres
      exact ⟨res, rfl, h1, fun v hv => hv, h4, h5⟩
    | cons v q' =>
      exfalso
      have hle : seen.length ≤ g.adj.length := nodup_keys_length_le g seen h1 h3
      rw [List.length_cons] at h6
      omega
  | succ fuel ih =>
    intro q seen res h1 h2 h3 h4 h5 h6
    cases q with
    | nil =>
      have hres : res = seen := by
        rw [← h2, List.append_nil]
      subst hres
      exact ⟨res, rfl, h1, fun v hv => hv, h4, h5⟩
    | cons v q' =>
      obtain ⟨news, hvisit, hndnews, hnews, hcover⟩ :=
        bfsVisit_spec (sortAsc (adjOf g v)) seen q'
      have hstep : bfsLoop g (fuel + 1) (v :: q') seen res =
          bfsLoop g fuel (q' ++ news) (seen ++ news) (res ++ [v]) := by
        show bfsLoop g fuel (bfsVisit (sortAsc (adjOf g v)) seen q').2
          (bfsVisit (sortAsc (adjOf g v)) seen q').1 (res ++ [v]) =
          bfsLoop g fuel (q' ++ news) (seen ++ news) (res ++ [v])
        rw [hvisit]
      have hvseen : v ∈ seen := by
        rw [← h2]
        exact List.mem_append_right res (List.mem_cons_self v q')
      have hmemnews : ∀ w ∈ news, w ∈ adjOf g v :=
        fun w hw => (mem_sortAsc (adjOf g v) w).mp (hnews w hw).1
      have h1' : (seen ++ news).Nodup :=
        List.Nodup.append h1 hndnews (fun a ha han => (hnews a han).2 ha)
      have h2' : (res ++ [v]) ++ (q' ++ news) = seen ++ news := by
        have hre : (res ++ [v]) ++ (q' ++ news) = (res ++ (v :: q')) ++ news := by
          simp
        rw [hre, h2]
      have h3' : ∀ w ∈ seen ++ news, w ∈ gKeys g := by
        intro w hw
        rcases List.mem_append.mp hw with h | h
        · exact h3 w h
        · exact adjOf_subset_keys g hwf v w (hmemnews w h)
      have h4' : ∀ w ∈ seen ++ news, Reach g s w := by
        intro w hw
        rcases List.mem_append.mp hw with h | h
        · exact h4 w h
        · exact Reach.step (h4 v hvseen) (hmemnews w h)
      have h5' : ∀ u ∈ res ++ [v], ∀ w ∈ adjOf g u, w ∈ seen ++ news := by
        intro u hu w hw
        rcases List.mem_append.mp hu with h | h
        · exact List.mem_append_left news (h5 u h w hw)
        · have huv : u = v := List.mem_singleton.mp h
          subst huv
          exact hcover w ((mem_sortAsc (adjOf g u) w).mpr hw)
      have h6' : (q' ++ news).length + g.adj.length ≤ fuel + (seen ++ news).length := by
        rw [List.length_append, List.length_append]
        rw [List.length_cons] at h6
        omega
      obtain ⟨out, hout, houtnd, hseenout, houtreach, houtclosed⟩ :=
        ih (q' ++ news) (seen ++ news) (res ++ [v]) h1' h2' h3' h4' h5' h6'
      refine ⟨out, ?_, houtnd, ?_, houtreach, houtclosed⟩
      · rw [hstep, hout]
      · intro w hw
        exact hseenout w (List.mem_append_left news hw)

lemma mem_dfsPush (seen : List Int) : ∀ (ws st : List Int) (x : Int),
    x ∈ dfsPush seen ws st → x ∈ st ∨ x ∈ ws := by
  intro ws
  induction ws with
  | nil => exact fun st x hx => Or.inl hx
  | cons w ws ih =>
    intro st x hx
    have hx' : x ∈ dfsPush seen ws (if w ∈ seen then st else w :: st) := hx
    rcases ih _ x hx' with h | h
    · by_cases hw : w ∈ seen
      · rw [if_pos hw] at h
        exact Or.inl h
      · rw [if_neg hw] at h
        rcases List.mem_cons.mp h with h2 | h2
        · exact Or.inr (h2 ▸ List.mem_cons_self w ws)
        · exact Or.inl h2
    · exact Or.inr (List.mem_cons_of_mem w h)

lemma dfsPush_mem_of_mem (seen : List Int) : ∀ (ws st : List Int) (x : Int),
    x ∈ st → x ∈ dfsPush seen ws st := by
  intro ws
  induction ws with
  | nil => exact fun st x hx => hx
  | cons w ws ih =>
    intro st x hx
    show x ∈ dfsPush seen ws (if w ∈ seen then st else w :: st)
    apply ih
    by_cases hw : w ∈ seen
    · rw [if_pos hw]; exact hx
    · rw [if_neg hw]; exact List.mem_cons_of_mem w hx

lemma dfsPush_mem_of_unseen (seen : List Int) : ∀ (ws st : List Int) (x : Int),
    x ∈ ws → x ∉ seen → x ∈ dfsPush seen ws st := by
  intro ws
  induction ws with
  | nil => exact fun st x hx _ => absurd hx (List.not_mem_nil x)
  | cons w ws ih =>
    intro st x hx hns
    show x ∈ dfsPush seen ws (if w ∈ seen then st else w :: st)
    rcases List.mem_cons.mp hx with h | h
    · subst h
      rw [if_neg hns]
      exact dfsPush_mem_of_mem seen ws (x :: st) x (List.mem_cons_self x st)
    · exact ih _ x h hns

lemma dfsPush_length (seen : List Int) : ∀ (ws st : List Int),
    (dfsPush seen ws st).length ≤ st.length + ws.length := by
  intro ws
  induction ws with
  | nil =>
    intro st
    exact Nat.le_refl _
  | cons w ws ih =>
    intro st
    show (dfsPush seen ws (if w ∈ seen then st else w :: st)).length ≤
      st.length + (w :: ws).length
    have h1 := ih (if w ∈ seen then st else w :: st)
    have h2 : (if w ∈ seen then st else w :: st).length ≤ st.length + 1 := by
      by_cases hw : w ∈ seen
      · rw [if_pos hw]; omega
      · rw [if_neg hw, List.length_cons]
    rw [List.length_cons]
    omega

lemma dfsLoop_spec (g : GraphS) (hwf : GraphWf g) (s : Int) :
    ∀ (fuel : Nat) (st seen : List Int),
      seen.Nodup →
      (∀ v ∈ seen, v ∈ gKeys g) →
      (∀ v ∈ seen, Reach g s v) →
      (∀ v ∈ st, v ∈ gKeys g ∧ Reach g s v) →
      (∀ u ∈ seen, ∀ w ∈ adjOf g u, w ∈ seen ∨ w ∈ st) →
      st.length + (sumDeg g + 1) * (g.adj.length - seen.length) ≤ fuel →
      ∃ out, dfsLoop g fuel st seen seen = out ∧ out.Nodup ∧
        (∀ v ∈ seen, v ∈ out) ∧ (∀ v ∈ st, v ∈ out) ∧
        (∀ v ∈ out, Reach g s v) ∧
        (∀ u ∈ out, ∀ w ∈ adjOf g u, w ∈ out) := by
  intro fuel
  induction fuel with
  | zero =>
    intro st seen h1 h3 h4 hst h5 h6
    cases st with
    | nil =>
      refine ⟨seen, rfl, h1, fun v hv => hv, fun v hv => absurd hv (List.not_mem_nil v),
        h4, ?_⟩
      intro u hu w hw
      rcases h5 u hu w hw with h | h
      · exact h
      · exact absurd h (List.not_mem_nil w)
    | cons v st' =>
      exfalso
      rw [List.length_cons] at h6
      omega
  | succ fuel ih =>
    intro st seen h1 h3 h4 hst h5 h6
    cases st with
    | nil =>
      refine ⟨seen, rfl, h1, fun v hv => hv, fun v hv => absurd hv (List.not_mem_nil v),
        h4, ?_⟩
      intro u hu w hw
      rcases h5 u hu w hw with h | h
      · exact h
      · exact absurd h (List.not_mem_nil w)
    | cons v st' =>
      have hstep : dfsLoop g (fuel + 1) (v :: st') seen seen =
          (if v ∈ seen then dfsLoop g fuel st' seen seen
           else dfsLoop g fuel (dfsPush (seen ++ [v]) (sortDesc (adjOf g v)) st')
             (seen ++ [v]) (seen ++ [v])) := rfl
      by_cases hv : v ∈ seen
      · -- already seen: skip
        have h5' : ∀ u ∈ seen, ∀ w ∈ adjOf g u, w ∈ seen ∨ w ∈ st' := by
          intro u hu w hw
          rcases h5 u hu w hw with h | h
          · exact Or.inl h
          · rcases List.mem_cons.mp h with h2 | h2
            · exact Or.inl (h2 ▸ hv)
            · exact Or.inr h2
        have h6' : st'.length + (sumDeg g + 1) * (g.adj.length - seen.length) ≤ fuel := by
          rw [List.length_cons] at h6
          omega
        obtain ⟨out, hout, houtnd, hseenout, hstout, houtreach, houtclosed⟩ :=
          ih st' seen h1 h3 h4 (fun x hx => hst x (List.mem_cons_of_mem v hx)) h5' h6'
        refine ⟨out, ?_, houtnd, hseenout, ?_, houtreach, houtclosed⟩
        · rw [hstep, if_pos hv, hout]
        · intro x hx
          rcases List.mem_cons.mp hx with h | h
          · exact h ▸ hseenout v hv
          · exact hstout x h
      · -- newly visited
        set seen2 := seen ++ [v] with hseen2
        set st2 := dfsPush seen2 (sortDesc (adjOf g v)) st' with hst2
        have h1' : seen2.Nodup :=
          List.Nodup.append h1 (List.nodup_singleton v)
            (fun a ha hav => hv ((List.mem_singleton.mp hav) ▸ ha))
        have hmem2 : ∀ x, x ∈ seen2 ↔ (x ∈ seen ∨ x = v) := by
          intro x
          rw [hseen2, List.mem_append, List.mem_singleton]
        have h3' : ∀ x ∈ seen2, x ∈ gKeys g := by
          intro x hx
          rcases (hmem2 x).mp hx with h | h
          · exact h3 x h
          · exact h ▸ (hst v (List.mem_cons_self v st')).1
        have h4' : ∀ x ∈ seen2, Reach g s x := by
          intro x hx
          rcases (hmem2 x).mp hx with h | h
          · exact h4 x h
          · exact h ▸ (hst v (List.mem_cons_self v st')).2
        have hst' : ∀ x ∈ st2, x ∈ gKeys g ∧ Reach g s x := by
          intro x hx
          rcases mem_dfsPush seen2 (sortDesc (adjOf g v)) st' x hx with h | h
          · exact hst x (List.mem_cons_of_mem v h)
          · have hadj : x ∈ adjOf g v := (mem_sortDesc (adjOf g v) x).mp h
            exact ⟨adjOf_subset_keys g hwf v x hadj,
              Reach.step ((hst v (List.mem_cons_self v st')).2) hadj⟩
        have h5' : ∀ u ∈ seen2, ∀ w ∈ adjOf g u, w ∈ seen2 ∨ w ∈ st2 := by
          intro u hu w hw
          rcases (hmem2 u).mp hu with h | h
          · rcases h5 u h w hw with h2 | h2
            · exact Or.inl ((hmem2 w).mpr (Or.inl h2))
            · rcases List.mem_cons.mp h2 with h3 | h3
              · exact Or.inl ((hmem2 w).mpr (Or.inr h3))
              · exact Or.inr (dfsPush_mem_of_mem seen2 (sortDesc (adjOf g v)) st' w h3)
          · subst h
            by_cases hws : w ∈ seen2
            · exact Or.inl hws
            · exact Or.inr (dfsPush_mem_of_unseen seen2 (sortDesc (adjOf g u)) st' w
                ((mem_sortDesc (adjOf g u) w).mpr hw) hws)
        have hlen2 : seen2.length = seen.length + 1 := by
          rw [hseen2, List.length_append, List.length_singleton]
        have hb1 : st2.length ≤ st'.length + sumDeg g := by
          have ha := dfsPush_length seen2 (sortDesc (adjOf g v)) st'
          have hb : (sortDesc (adjOf g v)).length = (adjOf g v).length :=
            List.length_insertionSort _ _
          have hc := adjOf_length_le_sumDeg g v
          rw [hst2]
          omega
        have hb2 : seen.length + 1 ≤ g.adj.length := by
          have hcons : (v :: seen).Nodup := List.nodup_cons.mpr ⟨hv, h1⟩
          have hsub : ∀ x ∈ v :: seen, x ∈ gKeys g := by
            intro x hx
            rcases List.mem_cons.mp hx with h | h
            · exact h ▸ (hst v (List.mem_cons_self v st')).1
            · exact h3 x h
          have := nodup_keys_length_le g (v :: seen) hcons hsub
          rw [List.length_cons] at this
          omega
        have hmul : (sumDeg g + 1) * (g.adj.length - seen.length) =
            (sumDeg g + 1) * (g.adj.length - (seen.length + 1)) + (sumDeg g + 1) := by
          have h9 : g.adj.length - seen.length =
              (g.adj.length - (seen.length + 1)) + 1 := by omega
          rw [h9, Nat.mul_add, Nat.mul_one]
        have h6' : st2.length + (sumDeg g + 1) * (g.adj.length - seen2.length) ≤ fuel := by
          rw [hlen2]
          rw [List.length_cons] at h6
          set A := (sumDeg g + 1) * (g.adj.length - (seen.length + 1)) with hA
          set B := (sumDeg g + 1) * (g.adj.length - seen.length) with hB
          omega
        obtain ⟨out, hout, houtnd, hseenout, hstout, houtreach, houtclosed⟩ :=
          ih st2 seen2 h1' h3' h4' hst' h5' h6'
        refine ⟨out, ?_, houtnd, ?_, ?_, houtreach, houtclosed⟩
        · rw [hstep, if_neg hv, hout]
        · intro x hx
          exact hseenout x ((hmem2 x).mpr (Or.inl hx))
        · intro x hx
          rcases List.mem_cons.mp hx with h | h
          · exact h ▸ hseenout v ((hmem2 v).mpr (Or.inr rfl))
          · exact hstout x (dfsPush_mem_of_mem seen2 (sortDesc (adjOf g v)) st' x h)

lemma graphBfs_spec (g : GraphS) (hwf : GraphWf g) (s : Int)
    (hs : gContains g s = true) :
    (graphBfs g s).Nodup ∧ ∀ v, v ∈ graphBfs g s ↔ Reach g s v := by
  have hsk : s ∈ gKeys g := gContains_mem_keys g s hs
  obtain ⟨out, hout, hnd, hseen, hreach, hclosed⟩ :=
    bfsLoop_spec g hwf s (2 * g.adj.length + 1) [s] [s] []
      (List.nodup_singleton s) rfl
      (fun v hv => (List.mem_singleton.mp hv) ▸ hsk)
      (fun v hv => (List.mem_singleton.mp hv) ▸ Reach.refl)
      (fun u hu => absurd hu (List.not_mem_nil u))
      (by rw [List.length_singleton]; omega)
  have heq : graphBfs g s = out := by
    unfold graphBfs
    rw [hs, if_pos rfl, hout]
  rw [heq]
  refine ⟨hnd, fun v => ⟨hreach v, ?_⟩⟩
  intro hr
  induction hr with
  | refl => exact hseen s (List.mem_singleton.mpr rfl)
  | step hru hadj ih => exact hclosed _ ih _ hadj

lemma graphDfs_spec (g : GraphS) (hwf : GraphWf g) (s : Int)
    (hs : gContains g s = true) :
    (graphDfs g s).Nodup ∧ ∀ v, v ∈ graphDfs g s ↔ Reach g s v := by
  have hsk : s ∈ gKeys g := gContains_mem_keys g s hs
  have hfuel : ([s] : List Int).length +
      (sumDeg g + 1) * (g.adj.length - ([] : List Int).length) = dfsFuel g := by
    unfold dfsFuel
    simp
  obtain ⟨out, hout, hnd, hseen, hstout, hreach, hclosed⟩ :=
    dfsLoop_spec g hwf s (dfsFuel g) [s] []
      List.nodup_nil
      (fun v hv => absurd hv (List.not_mem_nil v))
      (fun v hv => absurd hv (List.not_mem_nil v))
      (fun v hv => ⟨(List.mem_singleton.mp hv) ▸ hsk,
        (List.mem_singleton.mp hv) ▸ Reach.refl⟩)
      (fun u hu => absurd hu (List.not_mem_nil u))
      (le_of_eq hfuel)
  have heq : graphDfs g s = out := by
    unfold graphDfs
    rw [hs, if_pos rfl, hout]
  rw [heq]
  refine ⟨hnd, fun v => ⟨hreach v, ?_⟩⟩
  intro hr
  induction hr with
  | refl => exact hstout s (List.mem_singleton.mpr rfl)
  | step hru hadj ih => exact hclosed _ ih _ hadj

/-! ## C4: graph traversals -/

/-- C4.  On every well-formed graph, `bfs(start)` and `dfs(start)` with a
start value present in the graph terminate within the modelled fuel and
return a duplicate-free list whose members are exactly the values reachable
from `start` along stored neighbour references; with an absent start both
return `[]`.  On the spec's worked example (undirected edges
`(1,2), (2,3), (1,4)`), `bfs(1) = [1,2,4,3]` and `dfs(1) = [1,2,3,4]`. -/
theorem claim4_graph_traversals (g : GraphS) (hwf : GraphWf g) (s : Int) :
    (gContains g s = true →
      (graphBfs g s).Nodup ∧ (∀ v, v ∈ graphBfs g s ↔ Reach g s v) ∧
      (graphDfs g s).Nodup ∧ (∀ v, v ∈ graphDfs g s ↔ Reach g s v)) ∧
    (gContains g s = false → graphBfs g s = [] ∧ graphDfs g s = []) ∧
    graphBfs exampleGraph 1 = [1, 2, 4, 3] ∧
    graphDfs exampleGraph 1 = [1, 2, 3, 4] := by
  refine ⟨?_, ?_, by decide, by decide⟩
  · intro hs
    obtain ⟨hb1, hb2⟩ := graphBfs_spec g hwf s hs
    obtain ⟨hd1, hd2⟩ := graphDfs_spec g hwf s hs
    exact ⟨hb1, hb2, hd1, hd2⟩
  · intro hs
    constructor
    · unfold graphBfs
      rw [hs]
      rfl
    · unfold graphDfs
      rw [hs]
      rfl

/-- Witness for C4 at the spec's worked example graph with start `1`. -/
theorem claim4_graph_traversals_witness :
    GraphWf exampleGraph ∧ gContains exampleGraph 1 = true ∧
    (graphBfs exampleGraph 1).Nodup := by
  refine ⟨by decide, by decide, ?_⟩
  exact ((claim4_graph_traversals exampleGraph (by decide) 1).1 (by decide)).1

/-- Witness for C10 at index `0` of the singly linked list `[4, 5]` and of the
one-element doubly linked list obtained by appending `5` to the empty list. -/
theorem claim10_get_fallback_unreachable_witness :
    sllGet ⟨[4, 5], 2⟩ 0 = some (geti [4, 5] 0) ∧
    dllGet (dllAppend dllEmpty 5) 0 ≠ none := by
  have h := claim10_get_fallback_unreachable ⟨[4, 5], 2⟩ (by decide)
    (dllAppend dllEmpty 5) [dllEmpty.nextId]
    (chain_append dllEmpty [] 5 chain_empty) 0 (by decide)
  exact ⟨(h.1 (by decide)).2, (h.2 (by decide)).2⟩

end DSA
